import Mathlib

/-!
Verification of the go-bencode codec (github.com/wwalexander/go-bencode).

The repository carries two historical variants of the encoder:
* src/encode.go — "tag-required" policy (only fields with a bencode tag are
  serialized, the tag is used verbatim as the key, no option parsing);
* src/unnamed/part_001 — "tag-optional-with-name-fallback" policy (untagged
  exported fields are serialized under their declared names, the tag is split
  at commas, the sentinel "-" excludes a field, omitempty is honored).
Both are embedded below.  The decoder embedded is src/decode.go.

Go byte strings are modeled as List UInt8, Go int as Int (Go's int is 64-bit;
strconv.Itoa output always re-parses with strconv.Atoi, and no claim here
depends on integer overflow, so the embedding uses unbounded integers).
-/

namespace Bencode

/-- Bytes of an ASCII string.  Go strings are raw byte sequences; every name
and wire literal appearing in the development is ASCII, for which this agrees
with Go's byte representation. -/
def ascii (s : String) : List UInt8 := s.data.map (fun c => UInt8.ofNat c.toNat)

/-- Is the byte an ASCII decimal digit (as tested by strconv and by
Decoder.discard's first-byte dispatch)? -/
def isDigit (c : UInt8) : Bool := 48 ≤ c && c ≤ 57

/-- Fueled recursion for ntoa (structural, so that the kernel can evaluate
it); the wrapper passes ample fuel. -/
def ntoaGo : Nat → Nat → List UInt8
  | 0, _ => []
  | f + 1, n =>
      if n < 10 then [UInt8.ofNat (48 + n)]
      else ntoaGo f (n / 10) ++ [UInt8.ofNat (48 + n % 10)]

/-- Decimal digit string of a natural number, as produced by strconv.Itoa on
non-negative input. -/
def ntoa (n : Nat) : List UInt8 := ntoaGo (n + 1) n

theorem ntoaGo_irrel : ∀ n f g, n < f → n < g → ntoaGo f n = ntoaGo g n := by
  intro n
  induction n using Nat.strong_induction_on with
  | _ n ih =>
    intro f g hf hg
    match f, g with
    | f1 + 1, g1 + 1 =>
      by_cases h : n < 10
      · simp [ntoaGo, h]
      · have hd : n / 10 < n := Nat.div_lt_self (by omega) (by omega)
        simp only [ntoaGo, if_neg h]
        rw [ih (n / 10) hd f1 g1 (by omega) (by omega)]

/-- The recurrence src's strconv satisfies: last digit appended after the
representation of n / 10. -/
theorem ntoa_eq (n : Nat) :
    ntoa n = if n < 10 then [UInt8.ofNat (48 + n)]
             else ntoa (n / 10) ++ [UInt8.ofNat (48 + n % 10)] := by
  by_cases h : n < 10
  · simp [ntoa, ntoaGo, h]
  · have hd : n / 10 < n := Nat.div_lt_self (by omega) (by omega)
    rw [if_neg h]
    show ntoaGo (n + 1) n = _
    rw [ntoaGo, if_neg h, ntoaGo_irrel (n / 10) n (n / 10 + 1) (by omega) (by omega)]
    rfl

/-- strconv.Itoa: decimal representation of a (signed) integer. -/
def itoa (n : Int) : List UInt8 :=
  if n < 0 then 45 :: ntoa (-n).toNat else ntoa n.toNat

/-- Digit-accumulation loop of strconv.Atoi: consumes the whole list,
failing on the first non-digit byte. -/
def digitsVal (acc : Nat) : List UInt8 → Option Nat
  | [] => some acc
  | c :: r => if isDigit c then digitsVal (10 * acc + (c.toNat - 48)) r else none

/-- Parse a non-empty all-digit byte list (strconv.Atoi after sign removal);
the empty list is a syntax error. -/
def parseDigits (l : List UInt8) : Option Nat :=
  match l with
  | [] => none
  | _ :: _ => digitsVal 0 l

/-- strconv.Atoi: optional sign ('-' = 45 or '+' = 43) followed by at least
one digit.  Go additionally range-checks against 64-bit int; Itoa output of a
Go int always passes that check and no claim below exercises overflow, so the
model parses to an unbounded integer. -/
def atoi (l : List UInt8) : Option Int :=
  match l with
  | [] => none
  | c :: r =>
    if c = 45 then (parseDigits r).map (fun m => -(Int.ofNat m))
    else if c = 43 then (parseDigits r).map (fun m => Int.ofNat m)
    else (parseDigits l).map (fun m => Int.ofNat m)

theorem uofNat_lt_size_toNat {n : Nat} (h : n < 256) : (UInt8.ofNat n).toNat = n := by
  simp [UInt8.ofNat, UInt8.toNat, Fin.ofNat]
  omega

theorem isDigit_ofNat {m : Nat} (h : m < 10) :
    isDigit (UInt8.ofNat (48 + m)) = true := by
  simp only [isDigit, UInt8.le_def, UInt8.ofNat, decide_eq_true_eq, Bool.and_eq_true]
  constructor
  · show (48 : Fin 256) ≤ Fin.ofNat _
    rw [Fin.le_def]
    simp [Fin.ofNat]
    omega
  · show Fin.ofNat _ ≤ (57 : Fin 256)
    rw [Fin.le_def]
    simp [Fin.ofNat]
    omega

theorem ntoa_ne_nil (n : Nat) : ntoa n ≠ [] := by
  rw [ntoa_eq]
  split <;> simp

theorem ntoa_digits (n : Nat) : ∀ c ∈ ntoa n, isDigit c = true := by
  induction n using Nat.strong_induction_on with
  | _ n ih =>
    intro c hc
    rw [ntoa_eq] at hc
    by_cases h : n < 10
    · rw [if_pos h] at hc
      simp only [List.mem_singleton] at hc
      subst hc
      exact isDigit_ofNat h
    · rw [if_neg h] at hc
      rcases List.mem_append.mp hc with h1 | h1
      · exact ih (n / 10) (Nat.div_lt_self (by omega) (by omega)) c h1
      · simp only [List.mem_singleton] at h1
        subst h1
        exact isDigit_ofNat (Nat.mod_lt _ (by omega))

theorem isDigit_toNat {c : UInt8} (h : isDigit c = true) :
    48 ≤ c.toNat ∧ c.toNat ≤ 57 := by
  simp only [isDigit, Bool.and_eq_true, decide_eq_true_eq] at h
  rcases h with ⟨h1, h2⟩
  rw [UInt8.le_def] at h1 h2
  exact ⟨h1, h2⟩

theorem digit_ne_e {c : UInt8} (h : isDigit c = true) : c ≠ 101 := by
  intro he
  subst he
  have := (isDigit_toNat h).2
  simp [UInt8.size] at this

theorem digit_ne_colon {c : UInt8} (h : isDigit c = true) : c ≠ 58 := by
  intro he
  subst he
  have := (isDigit_toNat h).2
  simp [UInt8.size] at this

theorem digit_ne_45 {c : UInt8} (h : isDigit c = true) : c ≠ 45 := by
  intro he
  rw [he] at h
  exact absurd h (by decide)

theorem digit_ne_43 {c : UInt8} (h : isDigit c = true) : c ≠ 43 := by
  intro he
  rw [he] at h
  exact absurd h (by decide)

theorem digitsVal_append (acc : Nat) (l1 l2 : List UInt8) :
    digitsVal acc (l1 ++ l2) = (digitsVal acc l1).bind (fun a => digitsVal a l2) := by
  induction l1 generalizing acc with
  | nil => simp [digitsVal]
  | cons c r ih =>
    simp only [List.cons_append, digitsVal]
    by_cases h : isDigit c = true
    · rw [if_pos h, if_pos h]
      exact ih _
    · rw [if_neg h, if_neg h]
      rfl

theorem uofNat_toNat {n : Nat} (h : n < 256) : (UInt8.ofNat n).toNat = n := by
  simp [UInt8.ofNat, UInt8.toNat, Fin.ofNat]
  omega

theorem digitsVal_ntoa (acc n : Nat) :
    digitsVal acc (ntoa n) = some (acc * 10 ^ (ntoa n).length + n) := by
  induction n using Nat.strong_induction_on generalizing acc with
  | _ n ih =>
    rw [ntoa_eq]
    by_cases h : n < 10
    · rw [if_pos h]
      simp only [digitsVal, if_pos (isDigit_ofNat h), List.length_singleton, pow_one]
      congr 1
      rw [uofNat_lt_size_toNat (by omega)]
      omega
    · rw [if_neg h]
      have hdl : n / 10 < n := Nat.div_lt_self (by omega) (by omega)
      rw [digitsVal_append, ih (n / 10) hdl acc]
      have hm : n % 10 < 10 := Nat.mod_lt _ (by omega)
      have hd := isDigit_ofNat hm
      have hb : (some (acc * 10 ^ (ntoa (n / 10)).length + n / 10)).bind
          (fun a => digitsVal a [UInt8.ofNat (48 + n % 10)]) =
          digitsVal (acc * 10 ^ (ntoa (n / 10)).length + n / 10)
            [UInt8.ofNat (48 + n % 10)] := rfl
      rw [hb]
      simp only [digitsVal, if_pos hd]
      congr 1
      rw [uofNat_lt_size_toNat (by omega)]
      rw [List.length_append, List.length_singleton, pow_add, pow_one]
      have key : ∀ P q r : Nat,
          10 * (acc * P + q) + r = acc * (P * 10) + (10 * q + r) := by
        intro P q r
        ring
      have h48 : 48 + n % 10 - 48 = n % 10 := by omega
      rw [h48, key, Nat.div_add_mod]

theorem parseDigits_ntoa (n : Nat) : parseDigits (ntoa n) = some n := by
  rcases hn : ntoa n with _ | ⟨c, r⟩
  · exact absurd hn (ntoa_ne_nil n)
  · have h1 : parseDigits (c :: r) = digitsVal 0 (c :: r) := rfl
    rw [h1, ← hn, digitsVal_ntoa]
    simp

theorem ntoa_head_digit (n : Nat) (c : UInt8) (r : List UInt8) (h : ntoa n = c :: r) :
    isDigit c = true :=
  ntoa_digits n c (by rw [h]; simp)

/-- strconv round trip: Atoi (Itoa n) = n. -/
theorem atoi_itoa (n : Int) : atoi (itoa n) = some n := by
  by_cases hn : n < 0
  · rw [itoa, if_pos hn]
    have h1 : atoi (45 :: ntoa (-n).toNat) =
        (parseDigits (ntoa (-n).toNat)).map (fun m => -(Int.ofNat m)) := by
      rw [atoi]
      rw [if_pos rfl]
    rw [h1, parseDigits_ntoa]
    rw [Option.map_some']
    congr 1
    simp only [Int.ofNat_eq_coe]
    omega
  · rw [itoa, if_neg hn]
    rcases hn2 : ntoa n.toNat with _ | ⟨c, r⟩
    · exact absurd hn2 (ntoa_ne_nil n.toNat)
    have hd := ntoa_head_digit _ _ _ hn2
    have h1 : atoi (c :: r) =
        if c = 45 then (parseDigits r).map (fun m => -(Int.ofNat m))
        else if c = 43 then (parseDigits r).map (fun m => Int.ofNat m)
        else (parseDigits (c :: r)).map (fun m => Int.ofNat m) := rfl
    rw [h1, if_neg (digit_ne_45 hd), if_neg (digit_ne_43 hd), ← hn2, parseDigits_ntoa]
    rw [Option.map_some']
    congr 1
    simp only [Int.ofNat_eq_coe]
    omega

theorem itoa_mem (n : Int) : ∀ c ∈ itoa n, isDigit c = true ∨ c = 45 := by
  intro c hc
  rw [itoa] at hc
  split at hc
  · rcases List.mem_cons.mp hc with he | hm
    · right; exact he
    · left; exact ntoa_digits _ _ hm
  · left; exact ntoa_digits _ _ hc

theorem itoa_ne_e (n : Int) : ∀ c ∈ itoa n, c ≠ 101 := by
  intro c hc
  rcases itoa_mem n c hc with h | h
  · exact digit_ne_e h
  · subst h; decide

theorem ntoa_ne_colon (n : Nat) : ∀ c ∈ ntoa n, c ≠ 58 :=
  fun c hc => digit_ne_colon (ntoa_digits n c hc)

/-! ## The universe of Go values seen by the codec

Dispatch in both encode.go and decode.go is by reflect.Kind.  The claims range
over byte strings ([]byte; Go string values take the same wire form via the
[]byte conversion and are not modeled separately), ints, slices, structs, and
values of any other kind (which hit the default "unsupported type" arms). -/

/-- A Go value, as dispatched on by the codec.

* bytes s — a []byte value;
* int n — a Go int;
* list z es — a slice []T with elements es; the element type T is represented
  by its zero value z (reflect.New of the element type allocates exactly z
  whenever z is a genuine zero value, which the theorems' hypotheses require);
* struct fs — a struct value; each field carries its declared name, its
  optional bencode tag (reflect.StructTag.Lookup / Get), and its value;
* unsupported — a value or target of any other kind (map, float, bool, ...).
-/
inductive Value where
  | bytes : List UInt8 → Value
  | int : Int → Value
  | list : Value → List Value → Value
  | struct : List (List UInt8 × Option (List UInt8) × Value) → Value
  | unsupported : Value

/-- A struct field: declared name, optional bencode tag, current value. -/
abbrev SField := List UInt8 × Option (List UInt8) × Value

theorem u8_lt_iff {a b : UInt8} : a < b ↔ a.toNat < b.toNat := by
  rw [UInt8.lt_def, BitVec.lt_def]
  exact Iff.rfl

theorem u8_trichotomy (a b : UInt8) : a < b ∨ a = b ∨ b < a := by
  rcases Nat.lt_trichotomy a.toNat b.toNat with h | h | h
  · left
    exact u8_lt_iff.mpr h
  · right; left
    exact UInt8.toNat.inj h
  · right; right
    exact u8_lt_iff.mpr h

/-- Byte-wise lexicographic order on byte strings: exactly Go's built-in
string comparison, which sort.StringSlice sorts by. -/
def leB : List UInt8 → List UInt8 → Bool
  | [], _ => true
  | _ :: _, [] => false
  | a :: as, b :: bs => if a < b then true else if b < a then false else leB as bs

def LeB (a b : List UInt8) : Prop := leB a b = true

instance : DecidableRel LeB := fun a b => by
  unfold LeB
  infer_instance

theorem leB_cons_lt {x y : UInt8} {xs ys : List UInt8} (h : x < y) :
    leB (x :: xs) (y :: ys) = true := by
  simp [leB, h]

theorem leB_cons_gt {x y : UInt8} {xs ys : List UInt8} (h : y < x) :
    leB (x :: xs) (y :: ys) = false := by
  have h2 : ¬ x < y := by
    rw [u8_lt_iff] at h ⊢
    omega
  simp [leB, h, h2]

theorem leB_cons_same (x : UInt8) (xs ys : List UInt8) :
    leB (x :: xs) (x :: ys) = leB xs ys := by
  have h2 : ¬ x < x := by
    rw [u8_lt_iff]
    omega
  simp [leB, h2]

theorem leB_total (a b : List UInt8) : leB a b = true ∨ leB b a = true := by
  induction a generalizing b with
  | nil => left; rfl
  | cons x xs ih =>
    cases b with
    | nil => right; rfl
    | cons y ys =>
      rcases u8_trichotomy x y with h | h | h
      · left
        exact leB_cons_lt h
      · subst h
        rw [leB_cons_same, leB_cons_same]
        exact ih ys
      · right
        exact leB_cons_lt h

theorem leB_trans {a b c : List UInt8} (h1 : leB a b = true) (h2 : leB b c = true) :
    leB a c = true := by
  induction a generalizing b c with
  | nil => rfl
  | cons x xs ih =>
    cases b with
    | nil => exact absurd h1 (by simp [leB])
    | cons y ys =>
      cases c with
      | nil => exact absurd h2 (by simp [leB])
      | cons z zs =>
        rcases u8_trichotomy x y with hxy | hxy | hxy
        · rcases u8_trichotomy y z with hyz | hyz | hyz
          · exact leB_cons_lt (by rw [u8_lt_iff] at *; omega)
          · subst hyz
            exact leB_cons_lt hxy
          · rw [leB_cons_gt hyz] at h2
            exact absurd h2 (by simp)
        · subst hxy
          rcases u8_trichotomy x z with hyz | hyz | hyz
          · exact leB_cons_lt hyz
          · subst hyz
            rw [leB_cons_same] at h1 h2 ⊢
            exact ih h1 h2
          · rw [leB_cons_gt hyz] at h2
            exact absurd h2 (by simp)
        · rw [leB_cons_gt hxy] at h1
          exact absurd h1 (by simp)

theorem leB_antisymm {a b : List UInt8} (h1 : leB a b = true) (h2 : leB b a = true) :
    a = b := by
  induction a generalizing b with
  | nil =>
    cases b with
    | nil => rfl
    | cons y ys => exact absurd h2 (by simp [leB])
  | cons x xs ih =>
    cases b with
    | nil => exact absurd h1 (by simp [leB])
    | cons y ys =>
      rcases u8_trichotomy x y with hxy | hxy | hxy
      · rw [leB_cons_gt hxy] at h2
        exact absurd h2 (by simp)
      · subst hxy
        rw [leB_cons_same] at h1 h2
        rw [ih h1 h2]
      · rw [leB_cons_gt hxy] at h1
        exact absurd h1 (by simp)

instance : IsTotal (List UInt8) LeB := ⟨leB_total⟩
instance : IsTrans (List UInt8) LeB := ⟨fun _ _ _ => leB_trans⟩
instance : IsAntisymm (List UInt8) LeB := ⟨fun _ _ => leB_antisymm⟩

/-- sort.Sort(sort.StringSlice(names)): sorts names ascending by Go string
comparison.  sort.Sort is unstable, but on a list of plain strings every
sorted rearrangement is the same list, so insertion sort gives exactly the
Go result. -/
def sortKeys (l : List (List UInt8)) : List (List UInt8) := List.insertionSort LeB l

/-! ## Field-name resolution and small helpers shared by the variants -/

/-- strings.Split(t, ","): the comma-separated segments of a tag. -/
def splitComma : List UInt8 → List (List UInt8)
  | [] => [[]]
  | c :: r =>
      match splitComma r with
      | [] => [[c]]
      | h :: tl => if c = 44 then [] :: h :: tl else (c :: h) :: tl

/-- strs[0] of strings.Split(t, ","). -/
def commaHead (t : List UInt8) : List UInt8 :=
  match splitComma t with
  | [] => t
  | h :: _ => h

/-- strs[1:] of strings.Split(t, ","): the option segments. -/
def commaOpts (t : List UInt8) : List (List UInt8) :=
  match splitComma t with
  | [] => []
  | _ :: tl => tl

theorem splitComma_ne_nil (t : List UInt8) : splitComma t ≠ [] := by
  cases t with
  | nil => simp [splitComma]
  | cons c r =>
    rw [splitComma]
    rcases h : splitComma r with _ | ⟨h1, tl⟩
    · simp
    · show (if c = 44 then [] :: h1 :: tl else (c :: h1) :: tl) ≠ []
      split <;> simp

theorem splitComma_no_comma {t : List UInt8} (h : (44 : UInt8) ∉ t) :
    splitComma t = [t] := by
  induction t with
  | nil => rfl
  | cons c r ih =>
    have hc : c ≠ 44 := fun he => h (by rw [he]; exact List.mem_cons_self _ _)
    have hr : (44 : UInt8) ∉ r := fun hm => h (List.mem_cons_of_mem _ hm)
    rw [splitComma, ih hr]
    show (if c = 44 then [[], r] else [c :: r]) = [c :: r]
    rw [if_neg hc]

theorem commaHead_no_comma {t : List UInt8} (h : (44 : UInt8) ∉ t) :
    commaHead t = t := by
  rw [commaHead, splitComma_no_comma h]

theorem commaOpts_no_comma {t : List UInt8} (h : (44 : UInt8) ∉ t) :
    commaOpts t = [] := by
  rw [commaOpts, splitComma_no_comma h]

/-! ## Structural predicates on values -/

mutual
/-- reflect.DeepEqual(v, zero value of v's type), as used by the omitempty
check in src/unnamed/part_001.  The model does not track nil-ness of slices,
so the nil zero slice and an empty non-nil slice coincide here. -/
def isZeroB : Value → Bool
  | .bytes s => s.isEmpty
  | .int n => decide (n = 0)
  | .list _ es => es.isEmpty
  | .struct fs => isZeroF fs
  | .unsupported => true

def isZeroF : List SField → Bool
  | [] => true
  | (_, _, v) :: rest => isZeroB v && isZeroF rest
end

mutual
/-- The zero value of the type of a value: what reflect.New allocates for a
fresh decode target of the same type (and what Unmarshal starts from). -/
def zeroOf : Value → Value
  | .bytes _ => .bytes []
  | .int _ => .int 0
  | .list z _ => .list z []
  | .struct fs => .struct (zeroF fs)
  | .unsupported => .unsupported

def zeroF : List SField → List SField
  | [] => []
  | (n, t, v) :: rest => (n, t, zeroOf v) :: zeroF rest
end

mutual
/-- Do two values have the same Go type (same kind, same element type for
slices, same field names, tags and field types for structs)? -/
def sameShapeB : Value → Value → Bool
  | .bytes _, .bytes _ => true
  | .int _, .int _ => true
  | .list z1 _, .list z2 _ => sameShapeB z1 z2
  | .struct fs1, .struct fs2 => shapeF fs1 fs2
  | .unsupported, .unsupported => true
  | _, _ => false

def shapeF : List SField → List SField → Bool
  | [], [] => true
  | (n1, t1, v1) :: r1, (n2, t2, v2) :: r2 =>
      decide (n1 = n2) && decide (t1 = t2) && sameShapeB v1 v2 && shapeF r1 r2
  | _, _ => false
end

mutual
/-- No value of unsupported kind occurs anywhere inside (so every encoder
arm taken is a supported one). -/
def noUnsupB : Value → Bool
  | .bytes _ => true
  | .int _ => true
  | .list _ es => noUnsupL es
  | .struct fs => noUnsupF fs
  | .unsupported => false

def noUnsupL : List Value → Bool
  | [] => true
  | v :: vs => noUnsupB v && noUnsupL vs

def noUnsupF : List SField → Bool
  | [] => true
  | (_, _, v) :: rest => noUnsupB v && noUnsupF rest
end

/-! ## Tag lookup of src/encode.go (tag-required policy) -/

/-- The names list collected by src/encode.go's struct arm: the raw tag of
every tagged field, in declaration order; untagged fields are skipped. -/
def namesTR (fs : List SField) : List (List UInt8) := fs.filterMap (fun f => f.2.1)

/-- The value the Go map fields[name] designates for a key: the value of the
last field in declaration order whose raw tag equals the key (map stores
overwrite earlier entries). -/
def lookupTagLast (k : List UInt8) : List SField → Option Value
  | [] => none
  | (_, t, v) :: rest =>
      match lookupTagLast k rest with
      | some w => some w
      | none => if t = some k then some v else none

/-! ## Name resolution of src/unnamed/part_001 (name-fallback policy) -/

/-- The key under which part_001's encoder serializes a field, or none if the
field is dropped: sentinel "-" excludes it; with a tag the key is the part
before the first comma, and an omitempty option together with a zero value
excludes it; without a tag the declared field name is the key. -/
def resolveNF : SField → Option (List UInt8)
  | (name, none, _) => some name
  | (_, some t, v) =>
      if t = [45] then none
      else if (commaOpts t).contains (ascii "omitempty") && isZeroB v then none
      else some (commaHead t)

/-- Keys of part_001's encoder in declaration order. -/
def namesNF (fs : List SField) : List (List UInt8) := fs.filterMap resolveNF

/-- Value for a key under part_001's field map (last entry wins). -/
def lookupNFLast (k : List UInt8) : List SField → Option Value
  | [] => none
  | f :: rest =>
      match lookupNFLast k rest with
      | some w => some w
      | none => if resolveNF f = some k then some f.2.2 else none

/-! ## Field map of src/decode.go -/

/-- The dictionary key a struct field answers to during decoding: the tag's
part before the first comma when a tag is present (the sentinel "-" excludes
the field), else the declared field name. -/
def resolvedName : SField → Option (List UInt8)
  | (name, none, _) => some name
  | (_, some t, _) => if t = [45] then none else some (commaHead t)

/-- fields[key] of src/decode.go's struct arm: the value of the last field in
declaration order whose resolved name is the key. -/
def findField (k : List UInt8) : List SField → Option Value
  | [] => none
  | f :: rest =>
      match findField k rest with
      | some w => some w
      | none => if resolvedName f = some k then some f.2.2 else none

/-- Store a decoded value through the reference fields[key]: replace the value
of the last field whose resolved name is the key. -/
def setField (k : List UInt8) (w : Value) : List SField → List SField
  | [] => []
  | f :: rest =>
      match findField k rest with
      | some _ => f :: setField k w rest
      | none =>
          if resolvedName f = some k then (f.1, f.2.1, w) :: rest
          else f :: setField k w rest

theorem lookupTagLast_sizeOf {k : List UInt8} {fs : List SField} {v : Value}
    (h : lookupTagLast k fs = some v) : sizeOf v < sizeOf fs := by
  induction fs with
  | nil => simp [lookupTagLast] at h
  | cons f rest ih =>
    obtain ⟨n, t, w⟩ := f
    rw [lookupTagLast] at h
    rcases hr : lookupTagLast k rest with _ | w2
    · rw [hr] at h
      by_cases ht : t = some k
      · rw [if_pos ht] at h
        cases h
        simp only [List.cons.sizeOf_spec, Prod.mk.sizeOf_spec]
        omega
      · rw [if_neg ht] at h
        cases h
    · rw [hr] at h
      cases h
      have := ih hr
      simp only [List.cons.sizeOf_spec, Prod.mk.sizeOf_spec]
      omega

theorem lookupNFLast_sizeOf {k : List UInt8} {fs : List SField} {v : Value}
    (h : lookupNFLast k fs = some v) : sizeOf v < sizeOf fs := by
  induction fs with
  | nil => simp [lookupNFLast] at h
  | cons f rest ih =>
    rw [lookupNFLast] at h
    rcases hr : lookupNFLast k rest with _ | w2
    · rw [hr] at h
      by_cases ht : resolveNF f = some k
      · rw [if_pos ht] at h
        cases h
        obtain ⟨n, t, w⟩ := f
        simp only [List.cons.sizeOf_spec, Prod.mk.sizeOf_spec]
        omega
      · rw [if_neg ht] at h
        cases h
    · rw [hr] at h
      cases h
      have := ih hr
      simp only [List.cons.sizeOf_spec, Prod.mk.sizeOf_spec]
      omega

/-! ## Encoder state: bufio.Writer over a bytes.Buffer

Writes go to the internal buffer; Flush moves the buffer to the caller-visible
sink.  With a bytes.Buffer underneath, writes and flushes never fail (bufio
only reports errors of the underlying writer), so the only encoder error is
the "unsupported type" one.  bufio's automatic flush when the 4096-byte
internal buffer fills is not modeled; none of the theorems below concern
outputs that large, and the claim about flushing is already decided by the
nested-Encode flushes that the model does capture. -/

structure WState where
  buf : List UInt8
  sink : List UInt8
deriving DecidableEq

def write (l : List UInt8) (st : WState) : WState := ⟨st.buf ++ l, st.sink⟩

def flush (st : WState) : WState := ⟨[], st.sink ++ st.buf⟩

inductive EErr where
  /-- errors.New "unsupported type". -/
  | unsupportedType
  /-- Fuel of the model ran out; the wrappers pass enough fuel for every run
  (proved where a theorem depends on it), so this is never produced there. -/
  | outOfFuel
deriving DecidableEq

/-- The byte-string production <length>:<bytes> (the three consecutive buffer
writes of the encoder are collapsed into one appended list). -/
def strEnc (s : List UInt8) : List UInt8 := ntoa s.length ++ 58 :: s

mutual
/-- Fuel bound for the encoders: an over-approximation of the recursion depth
of an encode call on v (each recursive call consumes one unit). -/
def eCost : Value → Nat
  | .bytes _ => 2
  | .int _ => 2
  | .list _ es => eCostL es + 3
  | .struct fs => eCostF fs + fs.length + 3
  | .unsupported => 2

def eCostL : List Value → Nat
  | [] => 1
  | v :: vs => eCost v + eCostL vs + 1

def eCostF : List SField → Nat
  | [] => 1
  | (_, _, v) :: rest => eCost v + eCostF rest + 2
end

namespace EncodeGo

/-! Embedding of src/encode.go (tag-required policy).  encode is the public
Encode: it runs the body and, through the deferred Flush that fires only when
no error occurred, flushes the buffer to the sink.  Nested calls in the list
and struct arms go through Encode again, so every successfully encoded nested
value is flushed on its own. -/

mutual
def encode : Nat → Value → WState → Option EErr × WState
  | 0, _, st => (some .outOfFuel, st)
  | fuel + 1, v, st =>
      match encodeB fuel v st with
      | (none, st1) => (none, flush st1)
      | r => r

def encodeB : Nat → Value → WState → Option EErr × WState
  | 0, _, st => (some .outOfFuel, st)
  | fuel + 1, v, st =>
      match v with
      | .bytes s => (none, write (strEnc s) st)
      | .int n => (none, write (105 :: (itoa n ++ [101])) st)
      | .list _ es =>
          let st1 := write [108] st
          match encodeElems fuel es st1 with
          | (none, st2) => (none, write [101] st2)
          | r => r
      | .struct fs =>
          let st1 := write [100] st
          match encodePairs fuel (sortKeys (namesTR fs)) fs st1 with
          | (none, st2) => (none, write [101] st2)
          | r => r
      | .unsupported => (some .unsupportedType, st)

def encodeElems : Nat → List Value → WState → Option EErr × WState
  | 0, _, st => (some .outOfFuel, st)
  | fuel + 1, es, st =>
      match es with
      | [] => (none, st)
      | v :: vs =>
          match encode fuel v st with
          | (none, st1) => encodeElems fuel vs st1
          | r => r

def encodePairs : Nat → List (List UInt8) → List SField → WState →
    Option EErr × WState
  | 0, _, _, st => (some .outOfFuel, st)
  | fuel + 1, ks, fs, st =>
      match ks with
      | [] => (none, st)
      | k :: ks1 =>
          -- enc.Encode([]byte(name)): the bytes arm never fails and flushes.
          let st1 := flush (write (strEnc k) st)
          match lookupTagLast k fs with
          | some v =>
              match encode fuel v st1 with
              | (none, st2) => encodePairs fuel ks1 fs st2
              | r => r
          | none => encodePairs fuel ks1 fs st1
          -- none is unreachable: every emitted key comes from the field map.
end

/-- Marshal of src/encode.go: encode into a fresh buffered writer over an
empty bytes.Buffer and return the buffer's contents, or the error. -/
def Marshal (v : Value) : Option (List UInt8) :=
  match encode (eCost v) v ⟨[], []⟩ with
  | (none, st) => some st.sink
  | (some _, _) => none

end EncodeGo

namespace EncodeNF

/-! Embedding of src/unnamed/part_001 (tag-optional-with-name-fallback
policy).  Identical to src/encode.go except for the struct arm's field
collection: resolveNF replaces the bare tag lookup (sentinel "-" exclusion,
comma-splitting, omitempty, fallback to the declared field name).  part_001's
dedicated string arm encodes a Go string via the same []byte path and is not
modeled separately. -/

mutual
def encode : Nat → Value → WState → Option EErr × WState
  | 0, _, st => (some .outOfFuel, st)
  | fuel + 1, v, st =>
      match encodeB fuel v st with
      | (none, st1) => (none, flush st1)
      | r => r

def encodeB : Nat → Value → WState → Option EErr × WState
  | 0, _, st => (some .outOfFuel, st)
  | fuel + 1, v, st =>
      match v with
      | .bytes s => (none, write (strEnc s) st)
      | .int n => (none, write (105 :: (itoa n ++ [101])) st)
      | .list _ es =>
          let st1 := write [108] st
          match encodeElems fuel es st1 with
          | (none, st2) => (none, write [101] st2)
          | r => r
      | .struct fs =>
          let st1 := write [100] st
          match encodePairs fuel (sortKeys (namesNF fs)) fs st1 with
          | (none, st2) => (none, write [101] st2)
          | r => r
      | .unsupported => (some .unsupportedType, st)

def encodeElems : Nat → List Value → WState → Option EErr × WState
  | 0, _, st => (some .outOfFuel, st)
  | fuel + 1, es, st =>
      match es with
      | [] => (none, st)
      | v :: vs =>
          match encode fuel v st with
          | (none, st1) => encodeElems fuel vs st1
          | r => r

def encodePairs : Nat → List (List UInt8) → List SField → WState →
    Option EErr × WState
  | 0, _, _, st => (some .outOfFuel, st)
  | fuel + 1, ks, fs, st =>
      match ks with
      | [] => (none, st)
      | k :: ks1 =>
          -- enc.Encode([]byte(name)): the bytes arm never fails and flushes.
          let st1 := flush (write (strEnc k) st)
          match lookupNFLast k fs with
          | some v =>
              match encode fuel v st1 with
              | (none, st2) => encodePairs fuel ks1 fs st2
              | r => r
          | none => encodePairs fuel ks1 fs st1
          -- none is unreachable: every emitted key comes from the field map.
end

/-- Marshal of src/unnamed/part_001. -/
def Marshal (v : Value) : Option (List UInt8) :=
  match encode (eCost v) v ⟨[], []⟩ with
  | (none, st) => some st.sink
  | (some _, _) => none

end EncodeNF

/-! ## Decoder: src/decode.go over a bufio.Reader

The logical stream position is the suffix of the input not yet consumed
(bufio's read-ahead buffering does not change which bytes a Decode call
consumes).  Targets are passed by value here: Go's Decode takes a pointer and
writes through it; the model returns the updated target instead, and the
non-pointer-target error branch is therefore not modeled.  Go string targets
take the same path as []byte and are not modeled separately. -/

inductive DErr where
  /-- io.EOF, as surfaced by Peek, ReadBytes and Read at end of input. -/
  | eof
  /-- a strconv.Atoi syntax error. -/
  | atoiSyntax
  /-- errors.New "cannot unmarshal into Go value of type int". -/
  | notInt
  /-- errors.New "cannot unmarshal into Go slice". -/
  | notSlice
  /-- errors.New "cannot unmarshal into Go struct". -/
  | notStruct
  /-- errors.New "unsupported type". -/
  | unsupportedTarget
  /-- discard: errors.New "invalid character looking for beginning of value". -/
  | invalidChar
  /-- bufio.ErrNegativeCount from Reader.Discard with a negative count. -/
  | negativeCount
deriving DecidableEq

inductive DRes (α : Type) where
  /-- Normal return: result plus the unconsumed rest of the stream. -/
  | ok : α → List UInt8 → DRes α
  /-- An error value returned to the caller. -/
  | err : DErr → DRes α
  /-- A run-time panic (make with a negative length aborts the call without
  returning an error). -/
  | panic : DRes α
  /-- Fuel of the model ran out; unreachable for the runs analysed below. -/
  | out : DRes α

/-- bufio Peek(1): look at the next byte without consuming it. -/
def peek1 : List UInt8 → DRes UInt8
  | [] => .err .eof
  | c :: r => .ok c (c :: r)

/-- bufio ReadByte. -/
def readByte : List UInt8 → DRes UInt8
  | [] => .err .eof
  | c :: r => .ok c r

/-- bufio ReadBytes(delim): consume through the first occurrence of delim.
At end of input without a delimiter ReadBytes hands back the partial data with
io.EOF; every caller in decode.go returns on that error and drops the data, so
the model returns the error alone.  The payload is returned with the trailing
delimiter already stripped (every caller strips it with s[:len(s)-1]). -/
def readBytesTo (delim : UInt8) : List UInt8 → DRes (List UInt8)
  | [] => .err .eof
  | c :: r =>
      if c = delim then .ok [] r
      else
        match readBytesTo delim r with
        | .ok p rest => .ok (c :: p) rest
        | other => other

/-- The read loop of decodeString: repeated bufio.Read calls until the k-byte
buffer is filled, returning the reader's io.EOF if the input runs dry first
(a partial read loops and is not an error). -/
def readFull (k : Nat) (s : List UInt8) : DRes (List UInt8) :=
  if k ≤ s.length then .ok (s.take k) (s.drop k) else .err .eof

/-- Decoder.next(c): peek one byte; report whether it equals c, consuming it
exactly when it does. -/
def next (c : UInt8) : List UInt8 → DRes Bool
  | [] => .err .eof
  | b :: r => if b = c then .ok true r else .ok false (b :: r)

/-- Decoder.decodeInteger(delim): ReadBytes(delim), strip the delimiter,
strconv.Atoi the payload. -/
def decodeInteger (delim : UInt8) (s : List UInt8) : DRes Int :=
  match readBytesTo delim s with
  | .ok p rest =>
      match atoi p with
      | some n => .ok n rest
      | none => .err .atoiSyntax
  | .err e => .err e
  | .panic => .panic
  | .out => .out

/-- Decoder.decodeString: length prefix up to ':', then make a buffer of that
length (a negative parsed length makes make([]byte, length) panic) and fill
it from the stream. -/
def decodeString (s : List UInt8) : DRes (List UInt8) :=
  match decodeInteger 58 s with
  | .ok n rest => if n < 0 then .panic else readFull n.toNat rest
  | .err e => .err e
  | .panic => .panic
  | .out => .out

mutual
/-- Decoder.Decode of src/decode.go, fueled (one unit per recursive call, so
the recursion is structural and the kernel can evaluate it): dispatch on the
target's kind.  The wrapper Decode passes fuel ample for every run the
theorems consider. -/
def decodeV : Nat → Value → List UInt8 → DRes Value
  | 0, _, _ => .out
  | fuel + 1, tgt, s =>
      match tgt with
      | .bytes _ =>
          match decodeString s with
          | .ok b rest => .ok (.bytes b) rest
          | .err e => .err e
          | .panic => .panic
          | .out => .out
      | .int _ =>
          match next 105 s with
          | .ok true s1 =>
              match decodeInteger 101 s1 with
              | .ok n rest => .ok (.int n) rest
              | .err e => .err e
              | .panic => .panic
              | .out => .out
          | .ok false _ => .err .notInt
          | .err e => .err e
          | .panic => .panic
          | .out => .out
      | .list z es =>
          match next 108 s with
          | .ok true s1 =>
              -- val.Set(val.Slice(0, 0)) when val.Len() > 0: the prior
              -- elements es are discarded before the append loop.
              match decodeL fuel z s1 with
              | .ok es1 rest => .ok (.list z es1) rest
              | .err e => .err e
              | .panic => .panic
              | .out => .out
          | .ok false _ => .err .notSlice
          | .err e => .err e
          | .panic => .panic
          | .out => .out
      | .struct fs =>
          match next 100 s with
          | .ok true s1 =>
              match decodeS fuel fs s1 with
              | .ok fs1 rest => .ok (.struct fs1) rest
              | .err e => .err e
              | .panic => .panic
              | .out => .out
          | .ok false _ => .err .notStruct
          | .err e => .err e
          | .panic => .panic
          | .out => .out
      | .unsupported => .err .unsupportedTarget

/-- The element loop of the slice arm: stop at 'e', otherwise decode one
fresh element (reflect.New of the element type, i.e. the zero representative
z) and append. -/
def decodeL : Nat → Value → List UInt8 → DRes (List Value)
  | 0, _, _ => .out
  | fuel + 1, z, s =>
      match next 101 s with
      | .ok true rest => .ok [] rest
      | .ok false s1 =>
          match decodeV fuel z s1 with
          | .ok v s2 =>
              match decodeL fuel z s2 with
              | .ok vs s3 => .ok (v :: vs) s3
              | .err e => .err e
              | .panic => .panic
              | .out => .out
          | .err e => .err e
          | .panic => .panic
          | .out => .out
      | .err e => .err e
      | .panic => .panic
      | .out => .out

/-- The entry loop of the struct arm: stop at 'e'; otherwise decode a key,
look it up in the field map, decode into the designated field or discard the
unmapped value. -/
def decodeS : Nat → List SField → List UInt8 → DRes (List SField)
  | 0, _, _ => .out
  | fuel + 1, fs, s =>
      match next 101 s with
      | .ok true rest => .ok fs rest
      | .ok false s1 =>
          match decodeString s1 with
          | .ok k s2 =>
              match findField k fs with
              | some fv =>
                  match decodeV fuel fv s2 with
                  | .ok v1 s3 => decodeS fuel (setField k v1 fs) s3
                  | .err e => .err e
                  | .panic => .panic
                  | .out => .out
              | none =>
                  match discardD fuel s2 with
                  | .ok _ s3 => decodeS fuel fs s3
                  | .err e => .err e
                  | .panic => .panic
                  | .out => .out
          | .err e => .err e
          | .panic => .panic
          | .out => .out
      | .err e => .err e
      | .panic => .panic
      | .out => .out

/-- Decoder.discard: consume one well-formed value without interpreting it. -/
def discardD : Nat → List UInt8 → DRes Unit
  | 0, _ => .out
  | fuel + 1, s =>
      match peek1 s with
      | .ok c _ =>
          if isDigit c then
            match readBytesTo 58 s with
            | .ok p rest =>
                match atoi p with
                | some n =>
                    -- bufio Discard(n): ErrNegativeCount for n < 0; io.EOF
                    -- if fewer than n bytes remain.
                    if n < 0 then .err .negativeCount
                    else if n.toNat ≤ rest.length then .ok () (rest.drop n.toNat)
                    else .err .eof
                | none => .err .atoiSyntax
            | .err e => .err e
            | .panic => .panic
            | .out => .out
          else if c = 105 then
            match readBytesTo 101 s with
            | .ok _ rest => .ok () rest
            | .err e => .err e
            | .panic => .panic
            | .out => .out
          else if c = 108 then
            match readByte s with
            | .ok _ s1 => discardL fuel s1
            | .err e => .err e
            | .panic => .panic
            | .out => .out
          else if c = 100 then
            match readByte s with
            | .ok _ s1 => discardDict fuel s1
            | .err e => .err e
            | .panic => .panic
            | .out => .out
          else .err .invalidChar
      | .err e => .err e
      | .panic => .panic
      | .out => .out

/-- discard's list loop. -/
def discardL : Nat → List UInt8 → DRes Unit
  | 0, _ => .out
  | fuel + 1, s =>
      match next 101 s with
      | .ok true rest => .ok () rest
      | .ok false s1 =>
          match discardD fuel s1 with
          | .ok _ s2 => discardL fuel s2
          | .err e => .err e
          | .panic => .panic
          | .out => .out
      | .err e => .err e
      | .panic => .panic
      | .out => .out

/-- discard's dictionary loop: discard a key and then a value per entry. -/
def discardDict : Nat → List UInt8 → DRes Unit
  | 0, _ => .out
  | fuel + 1, s =>
      match next 101 s with
      | .ok true rest => .ok () rest
      | .ok false s1 =>
          match discardD fuel s1 with
          | .ok _ s2 =>
              match discardD fuel s2 with
              | .ok _ s3 => discardDict fuel s3
              | .err e => .err e
              | .panic => .panic
              | .out => .out
          | .err e => .err e
          | .panic => .panic
          | .out => .out
      | .err e => .err e
      | .panic => .panic
      | .out => .out
end

/-- Decoder.Decode: one bencoded value from the front of the stream into the
target.  The fuel passed is ample for every run the theorems below consider
(they prove the needed bound explicitly). -/
def Decode (tgt : Value) (s : List UInt8) : DRes Value :=
  decodeV (2 * s.length + 4) tgt s

/-- Unmarshal(data, &v): decode from a fresh reader over data. -/
def Unmarshal (data : List UInt8) (tgt : Value) : DRes Value :=
  Decode tgt data

/-! ## Structural induction over the nested Value type -/

theorem sizeOf_mem_list {v : Value} {es : List Value} (h : v ∈ es) :
    sizeOf v < sizeOf es := List.sizeOf_lt_of_mem h

theorem sizeOf_mem_fields {f : SField} {fs : List SField} (h : f ∈ fs) :
    sizeOf f.2.2 < sizeOf fs := by
  have h1 : sizeOf f < sizeOf fs := List.sizeOf_lt_of_mem h
  obtain ⟨n, t, v⟩ := f
  simp only [Prod.mk.sizeOf_spec] at h1
  simp only []
  omega

/-- Structural induction for Value, with membership hypotheses for the nested
lists. -/
theorem Value.myInduction (P : Value → Prop)
    (hbytes : ∀ s, P (.bytes s))
    (hint : ∀ n, P (.int n))
    (hlist : ∀ z es, P z → (∀ e ∈ es, P e) → P (.list z es))
    (hstruct : ∀ fs, (∀ f ∈ fs, P f.2.2) → P (.struct fs))
    (huns : P .unsupported) : ∀ v, P v := by
  have key : ∀ n v, sizeOf (v : Value) ≤ n → P v := by
    intro n
    induction n using Nat.strong_induction_on with
    | _ n ih =>
      intro v hv
      match v with
      | .bytes s => exact hbytes s
      | .int m => exact hint m
      | .list z es =>
        have hz : sizeOf z < sizeOf (Value.list z es) := by
          simp only [Value.list.sizeOf_spec]
          omega
        have hes : ∀ e ∈ es, sizeOf e < sizeOf (Value.list z es) := by
          intro e he
          have := sizeOf_mem_list he
          simp only [Value.list.sizeOf_spec]
          omega
        apply hlist
        · exact ih (sizeOf z) (by omega) z le_rfl
        · intro e he
          exact ih (sizeOf e) (by have := hes e he; omega) e le_rfl
      | .struct fs =>
        apply hstruct
        intro f hf
        have h1 : sizeOf f.2.2 < sizeOf (Value.struct fs) := by
          have := sizeOf_mem_fields hf
          simp only [Value.struct.sizeOf_spec]
          omega
        exact ih (sizeOf f.2.2) (by omega) f.2.2 le_rfl
      | .unsupported => exact huns
  intro v
  exact key (sizeOf v) v le_rfl

/-! ## Decode-target compatibility

Decode writes through a pointer whose static type fixes the dispatch; a
target is compatible with a value when it has the value's type.  Current
contents of the target are unconstrained except that they carry the same
type information (the element-type representative of a slice and the field
names, tags and field types of a struct). -/

mutual
def MatchTgt : Value → Value → Prop
  | .bytes _, .bytes _ => True
  | .int _, .int _ => True
  | .list z1 _, .list z2 _ => z1 = z2
  | .struct fs1, .struct fs2 => MatchTgtF fs1 fs2
  | .unsupported, .unsupported => True
  | _, _ => False

def MatchTgtF : List SField → List SField → Prop
  | [], [] => True
  | (n1, t1, v1) :: r1, (n2, t2, v2) :: r2 =>
      n1 = n2 ∧ t1 = t2 ∧ MatchTgt v1 v2 ∧ MatchTgtF r1 r2
  | _, _ => False
end

theorem MatchTgt_refl (v : Value) : MatchTgt v v := by
  induction v using Value.myInduction with
  | hbytes s => trivial
  | hint n => trivial
  | hlist z es hz hes => rfl
  | hstruct fs hfs =>
    show MatchTgtF fs fs
    induction fs with
    | nil => trivial
    | cons f rest ih =>
      obtain ⟨n, t, v⟩ := f
      refine ⟨rfl, rfl, hfs (n, t, v) (by simp), ?_⟩
      exact ih (fun g hg => hfs g (List.mem_cons_of_mem _ hg))
  | huns => trivial

theorem MatchTgt_zeroOf (v : Value) : MatchTgt (zeroOf v) v := by
  induction v using Value.myInduction with
  | hbytes s => trivial
  | hint n => trivial
  | hlist z es hz hes => rfl
  | hstruct fs hfs =>
    show MatchTgtF (zeroF fs) fs
    induction fs with
    | nil => trivial
    | cons f rest ih =>
      obtain ⟨n, t, v⟩ := f
      refine ⟨rfl, rfl, hfs (n, t, v) (by simp), ?_⟩
      exact ih (fun g hg => hfs g (List.mem_cons_of_mem _ hg))
  | huns => trivial

/-! ## Pure description of the bytes src/encode.go emits -/

theorem lookupTagLast_eCost {k : List UInt8} {fs : List SField} {v : Value}
    (h : lookupTagLast k fs = some v) : eCost v + 2 ≤ eCostF fs := by
  induction fs with
  | nil => simp [lookupTagLast] at h
  | cons f rest ih =>
    obtain ⟨n, t, w⟩ := f
    rw [lookupTagLast] at h
    rcases hr : lookupTagLast k rest with _ | w2
    · rw [hr] at h
      by_cases ht : t = some k
      · rw [if_pos ht] at h
        cases h
        rw [eCostF]
        omega
      · rw [if_neg ht] at h
        cases h
    · rw [hr] at h
      cases h
      have := ih hr
      rw [eCostF]
      omega

theorem namesTR_length_le (fs : List SField) : (namesTR fs).length ≤ fs.length :=
  List.length_filterMap_le _ _

theorem sortKeys_length (l : List (List UInt8)) : (sortKeys l).length = l.length :=
  (List.perm_insertionSort LeB l).length_eq

theorem eCostF_pos (fs : List SField) : 1 ≤ eCostF fs := by
  cases fs with
  | nil => simp [eCostF]
  | cons f rest =>
    obtain ⟨n, t, v⟩ := f
    rw [eCostF]
    omega

theorem eCost_pos (v : Value) : 2 ≤ eCost v := by
  cases v <;> rw [eCost] <;> omega

theorem eCostL_pos (es : List Value) : 1 ≤ eCostL es := by
  cases es <;> rw [eCostL] <;> omega

mutual
/-- The byte string encode.go emits for a value (fueled like the encoder
itself; the fuel bounds below make it fuel-independent). -/
def pureV : Nat → Value → List UInt8
  | 0, _ => []
  | fuel + 1, v =>
      match v with
      | .bytes s => strEnc s
      | .int n => 105 :: (itoa n ++ [101])
      | .list _ es => 108 :: (pureL fuel es ++ [101])
      | .struct fs => 100 :: (pureP fuel (sortKeys (namesTR fs)) fs ++ [101])
      | .unsupported => []

def pureL : Nat → List Value → List UInt8
  | 0, _ => []
  | _ + 1, [] => []
  | fuel + 1, v :: vs => pureV fuel v ++ pureL fuel vs

def pureP : Nat → List (List UInt8) → List SField → List UInt8
  | 0, _, _ => []
  | _ + 1, [], _ => []
  | fuel + 1, k :: ks, fs =>
      strEnc k ++
        (match lookupTagLast k fs with
         | some v => pureV fuel v
         | none => []) ++
        pureP fuel ks fs
end

theorem pure_irrel :
    ∀ f,
      (∀ v g, eCost v ≤ f → eCost v ≤ g → pureV f v = pureV g v) ∧
      (∀ es g, eCostL es ≤ f → eCostL es ≤ g → pureL f es = pureL g es) ∧
      (∀ ks fs g, eCostF fs + ks.length + 1 ≤ f → eCostF fs + ks.length + 1 ≤ g →
        pureP f ks fs = pureP g ks fs) := by
  intro f
  induction f using Nat.strong_induction_on with
  | _ f ih =>
    refine ⟨?_, ?_, ?_⟩
    · intro v g hf hg
      have h2 := eCost_pos v
      obtain ⟨f1, rfl⟩ : ∃ f1, f = f1 + 1 := ⟨f - 1, by omega⟩
      obtain ⟨g1, rfl⟩ : ∃ g1, g = g1 + 1 := ⟨g - 1, by omega⟩
      match v with
      | .bytes s => rfl
      | .int n => rfl
      | .unsupported => rfl
      | .list z es =>
        show 108 :: (pureL f1 es ++ [101]) = 108 :: (pureL g1 es ++ [101])
        rw [eCost] at hf hg
        rw [(ih f1 (by omega)).2.1 es g1 (by omega) (by omega)]
      | .struct fs =>
        show 100 :: (pureP f1 (sortKeys (namesTR fs)) fs ++ [101]) =
             100 :: (pureP g1 (sortKeys (namesTR fs)) fs ++ [101])
        rw [eCost] at hf hg
        have hlen : (sortKeys (namesTR fs)).length ≤ fs.length := by
          rw [sortKeys_length]
          exact namesTR_length_le fs
        rw [(ih f1 (by omega)).2.2 (sortKeys (namesTR fs)) fs g1 (by omega) (by omega)]
    · intro es g hf hg
      have h2 := eCostL_pos es
      obtain ⟨f1, rfl⟩ : ∃ f1, f = f1 + 1 := ⟨f - 1, by omega⟩
      obtain ⟨g1, rfl⟩ : ∃ g1, g = g1 + 1 := ⟨g - 1, by omega⟩
      match es with
      | [] => rfl
      | v :: vs =>
        show pureV f1 v ++ pureL f1 vs = pureV g1 v ++ pureL g1 vs
        rw [eCostL] at hf hg
        have h3 := eCost_pos v
        have h4 := eCostL_pos vs
        rw [(ih f1 (by omega)).1 v g1 (by omega) (by omega),
            (ih f1 (by omega)).2.1 vs g1 (by omega) (by omega)]
    · intro ks fs g hf hg
      have h2 := eCostF_pos fs
      obtain ⟨f1, rfl⟩ : ∃ f1, f = f1 + 1 := ⟨f - 1, by omega⟩
      obtain ⟨g1, rfl⟩ : ∃ g1, g = g1 + 1 := ⟨g - 1, by omega⟩
      match ks with
      | [] => rfl
      | k :: ks1 =>
        show strEnc k ++ _ ++ pureP f1 ks1 fs = strEnc k ++ _ ++ pureP g1 ks1 fs
        simp only [List.length_cons] at hf hg
        congr 1
        · congr 1
          rcases hl : lookupTagLast k fs with _ | v
          · rfl
          · have h3 := lookupTagLast_eCost hl
            exact (ih f1 (by omega)).1 v g1 (by omega) (by omega)
        · exact (ih f1 (by omega)).2.2 ks1 fs g1 (by omega) (by omega)

/-- Fuel-free pure encodings. -/
def encV (v : Value) : List UInt8 := pureV (eCost v) v

def encL (es : List Value) : List UInt8 := pureL (eCostL es) es

def encP (ks : List (List UInt8)) (fs : List SField) : List UInt8 :=
  pureP (eCostF fs + ks.length + 1) ks fs

theorem pureV_encV {f : Nat} {v : Value} (h : eCost v ≤ f) : pureV f v = encV v :=
  (pure_irrel f).1 v (eCost v) h le_rfl

theorem pureL_encL {f : Nat} {es : List Value} (h : eCostL es ≤ f) :
    pureL f es = encL es :=
  (pure_irrel f).2.1 es (eCostL es) h le_rfl

theorem pureP_encP {f : Nat} {ks : List (List UInt8)} {fs : List SField}
    (h : eCostF fs + ks.length + 1 ≤ f) : pureP f ks fs = encP ks fs :=
  (pure_irrel f).2.2 ks fs (eCostF fs + ks.length + 1) h le_rfl

theorem encV_bytes (s : List UInt8) : encV (.bytes s) = strEnc s := rfl

theorem encV_int (n : Int) : encV (.int n) = 105 :: (itoa n ++ [101]) := rfl

theorem encV_list (z : Value) (es : List Value) :
    encV (.list z es) = 108 :: (encL es ++ [101]) := by
  show 108 :: (pureL (eCostL es + 2) es ++ [101]) = _
  rw [pureL_encL (by omega)]

theorem encV_struct (fs : List SField) :
    encV (.struct fs) = 100 :: (encP (sortKeys (namesTR fs)) fs ++ [101]) := by
  show 100 :: (pureP (eCostF fs + fs.length + 2) (sortKeys (namesTR fs)) fs ++ [101]) = _
  have hlen : (sortKeys (namesTR fs)).length ≤ fs.length := by
    rw [sortKeys_length]
    exact namesTR_length_le fs
  rw [pureP_encP (by omega)]

theorem encL_nil : encL [] = [] := rfl

theorem encL_cons (v : Value) (vs : List Value) :
    encL (v :: vs) = encV v ++ encL vs := by
  show pureV (eCost v + eCostL vs) v ++ pureL (eCost v + eCostL vs) vs = _
  have h3 := eCost_pos v
  have h4 := eCostL_pos vs
  rw [pureV_encV (by omega), pureL_encL (by omega)]

theorem encP_nil (fs : List SField) : encP [] fs = [] := rfl

theorem encP_cons (k : List UInt8) (ks : List (List UInt8)) (fs : List SField) :
    encP (k :: ks) fs =
      strEnc k ++
        (match lookupTagLast k fs with
         | some v => encV v
         | none => []) ++
        encP ks fs := by
  show strEnc k ++ _ ++ pureP (eCostF fs + ks.length + 1) ks fs = _
  congr 1
  · congr 1
    rcases hl : lookupTagLast k fs with _ | v
    · rfl
    · have h3 := lookupTagLast_eCost hl
      exact pureV_encV (by omega)

/-! ## What a successful encode.go run leaves in the writer -/

theorem noUnsup_lookupTagLast {k : List UInt8} {fs : List SField} {v : Value}
    (h : lookupTagLast k fs = some v) (hf : noUnsupF fs = true) :
    noUnsupB v = true := by
  induction fs with
  | nil => simp [lookupTagLast] at h
  | cons f rest ih =>
    obtain ⟨n, t, w⟩ := f
    rw [noUnsupF, Bool.and_eq_true] at hf
    rw [lookupTagLast] at h
    rcases hr : lookupTagLast k rest with _ | w2
    · rw [hr] at h
      by_cases ht : t = some k
      · rw [if_pos ht] at h
        cases h
        exact hf.1
      · rw [if_neg ht] at h
        cases h
    · rw [hr] at h
      cases h
      exact ih hr hf.2

theorem encodeGo_ok :
    ∀ f,
      (∀ v st, noUnsupB v = true → eCost v ≤ f →
        EncodeGo.encode f v st = (none, flush (write (encV v) st))) ∧
      (∀ es st, noUnsupL es = true → eCostL es ≤ f →
        EncodeGo.encodeElems f es st =
          (none, match es with
                 | [] => st
                 | _ :: _ => flush (write (encL es) st))) ∧
      (∀ ks fs st, noUnsupF fs = true → eCostF fs + ks.length + 1 ≤ f →
        EncodeGo.encodePairs f ks fs st =
          (none, match ks with
                 | [] => st
                 | _ :: _ => flush (write (encP ks fs) st))) := by
  intro f
  induction f using Nat.strong_induction_on with
  | _ f ih =>
    refine ⟨?_, ?_, ?_⟩
    · intro v st hn hc
      have h2 := eCost_pos v
      obtain ⟨f1, rfl⟩ : ∃ f1, f = f1 + 1 := ⟨f - 1, by omega⟩
      have h3 : 1 ≤ f1 := by omega
      obtain ⟨f2, rfl⟩ : ∃ f2, f1 = f2 + 1 := ⟨f1 - 1, by omega⟩
      match v with
      | .bytes s => rfl
      | .int n => rfl
      | .unsupported => simp [noUnsupB] at hn
      | .list z es =>
        rw [eCost] at hc
        rw [noUnsupB] at hn
        show (match EncodeGo.encodeB (f2 + 1) (.list z es) st with
              | (none, st1) => (none, flush st1)
              | r => r) = _
        have hb : EncodeGo.encodeB (f2 + 1) (.list z es) st =
            (match EncodeGo.encodeElems f2 es (write [108] st) with
             | (none, st2) => (none, write [101] st2)
             | r => r) := rfl
        rw [hb]
        have hel := (ih f2 (by omega)).2.1 es (write [108] st) hn (by omega)
        cases es with
        | nil =>
          rw [hel]
          rw [encV_list, encL_nil]
          simp [flush, write]
        | cons e es1 =>
          rw [hel]
          rw [encV_list, encL_cons]
          simp [flush, write, List.append_assoc, encL_cons]
      | .struct fs =>
        rw [eCost] at hc
        rw [noUnsupB] at hn
        have hlen : (sortKeys (namesTR fs)).length ≤ fs.length := by
          rw [sortKeys_length]
          exact namesTR_length_le fs
        show (match EncodeGo.encodeB (f2 + 1) (.struct fs) st with
              | (none, st1) => (none, flush st1)
              | r => r) = _
        have hb : EncodeGo.encodeB (f2 + 1) (.struct fs) st =
            (match EncodeGo.encodePairs f2 (sortKeys (namesTR fs)) fs
                (write [100] st) with
             | (none, st2) => (none, write [101] st2)
             | r => r) := rfl
        rw [hb]
        have hel := (ih f2 (by omega)).2.2 (sortKeys (namesTR fs)) fs
          (write [100] st) hn (by omega)
        rw [encV_struct, hel]
        cases hks : sortKeys (namesTR fs) with
        | nil =>
          rw [encP_nil]
          simp [flush, write]
        | cons k ks1 =>
          simp [flush, write, List.append_assoc]
    · intro es st hn hc
      have h2 := eCostL_pos es
      obtain ⟨f1, rfl⟩ : ∃ f1, f = f1 + 1 := ⟨f - 1, by omega⟩
      match es with
      | [] => rfl
      | v :: vs =>
        rw [eCostL] at hc
        rw [noUnsupL, Bool.and_eq_true] at hn
        have h3 := eCost_pos v
        have h4 := eCostL_pos vs
        have hv := (ih f1 (by omega)).1 v st hn.1 (by omega)
        show (match EncodeGo.encode f1 v st with
              | (none, st1) => EncodeGo.encodeElems f1 vs st1
              | r => r) = _
        rw [hv]
        have hvs := (ih f1 (by omega)).2.1 vs (flush (write (encV v) st)) hn.2 (by omega)
        show EncodeGo.encodeElems f1 vs (flush (write (encV v) st)) = _
        rw [hvs]
        cases vs with
        | nil =>
          rw [encL_cons, encL_nil]
          simp [flush, write]
        | cons w ws =>
          simp [flush, write, List.append_assoc, encL_cons]
    · intro ks fs st hn hc
      have h2 := eCostF_pos fs
      obtain ⟨f1, rfl⟩ : ∃ f1, f = f1 + 1 := ⟨f - 1, by omega⟩
      match ks with
      | [] => rfl
      | k :: ks1 =>
        simp only [List.length_cons] at hc
        show (match lookupTagLast k fs with
              | some v =>
                  match EncodeGo.encode f1 v (flush (write (strEnc k) st)) with
                  | (none, st2) => EncodeGo.encodePairs f1 ks1 fs st2
                  | r => r
              | none => EncodeGo.encodePairs f1 ks1 fs (flush (write (strEnc k) st))) = _
        rcases hl : lookupTagLast k fs with _ | v
        · have hrest := (ih f1 (by omega)).2.2 ks1 fs (flush (write (strEnc k) st)) hn
            (by omega)
          show EncodeGo.encodePairs f1 ks1 fs (flush (write (strEnc k) st)) = _
          rw [hrest]
          rw [encP_cons, hl]
          cases ks1 with
          | nil =>
            rw [encP_nil]
            simp [flush, write]
          | cons k2 ks2 =>
            simp [flush, write, List.append_assoc]
        · have hnv := noUnsup_lookupTagLast hl hn
          have hec := lookupTagLast_eCost hl
          have hv := (ih f1 (by omega)).1 v (flush (write (strEnc k) st)) hnv (by omega)
          show (match EncodeGo.encode f1 v (flush (write (strEnc k) st)) with
                | (none, st2) => EncodeGo.encodePairs f1 ks1 fs st2
                | r => r) = _
          rw [hv]
          have hrest := (ih f1 (by omega)).2.2 ks1 fs
            (flush (write (encV v) (flush (write (strEnc k) st)))) hn (by omega)
          show EncodeGo.encodePairs f1 ks1 fs
            (flush (write (encV v) (flush (write (strEnc k) st)))) = _
          rw [hrest]
          rw [encP_cons, hl]
          cases ks1 with
          | nil =>
            rw [encP_nil]
            simp [flush, write, List.append_assoc]
          | cons k2 ks2 =>
            simp [flush, write, List.append_assoc]

/-- Marshal of src/encode.go on a value with no unsupported component: the
returned bytes are exactly the pure encoding. -/
theorem MarshalGo_eq {v : Value} (h : noUnsupB v = true) :
    EncodeGo.Marshal v = some (encV v) := by
  rw [EncodeGo.Marshal]
  rw [(encodeGo_ok (eCost v)).1 v ⟨[], []⟩ h le_rfl]
  simp [flush, write]

/-! ## Decoding the productions the encoder emits -/

theorem readBytesTo_payload {delim : UInt8} {p rest : List UInt8}
    (h : delim ∉ p) : readBytesTo delim (p ++ delim :: rest) = .ok p rest := by
  induction p with
  | nil => simp [readBytesTo]
  | cons c q ih =>
    have hc : c ≠ delim := fun he => h (by rw [he]; exact List.mem_cons_self _ _)
    simp only [List.cons_append, readBytesTo]
    rw [if_neg hc, List.append_eq, ih (fun hm => h (List.mem_cons_of_mem _ hm))]

theorem decodeInteger_delim {delim : UInt8} {p rest : List UInt8} {n : Int}
    (hd : delim ∉ p) (hn : atoi p = some n) :
    decodeInteger delim (p ++ delim :: rest) = .ok n rest := by
  rw [decodeInteger, readBytesTo_payload hd]
  show (match atoi p with
        | some n => (.ok n rest : DRes Int)
        | none => .err .atoiSyntax) = _
  rw [hn]

theorem atoi_ntoa (m : Nat) : atoi (ntoa m) = some (Int.ofNat m) := by
  have h := atoi_itoa (Int.ofNat m)
  rw [itoa, if_neg (by exact Int.not_lt.mpr (Int.ofNat_nonneg m))] at h
  rw [show (Int.ofNat m).toNat = m from rfl] at h
  exact h

theorem readFull_exact (s rest : List UInt8) :
    readFull s.length (s ++ rest) = .ok s rest := by
  rw [readFull, if_pos (by simp)]
  rw [List.take_left, List.drop_left]

theorem decodeString_strEnc (s rest : List UInt8) :
    decodeString (strEnc s ++ rest) = .ok s rest := by
  have h1 : strEnc s ++ rest = ntoa s.length ++ 58 :: (s ++ rest) := by
    simp [strEnc]
  rw [decodeString, h1,
    decodeInteger_delim (fun hm => ntoa_ne_colon s.length 58 hm rfl) (atoi_ntoa s.length)]
  show (if (Int.ofNat s.length) < 0 then DRes.panic
        else readFull (Int.ofNat s.length).toNat (s ++ rest)) = _
  rw [if_neg (by exact Int.not_lt.mpr (Int.ofNat_nonneg s.length))]
  rw [show (Int.ofNat s.length).toNat = s.length from rfl]
  exact readFull_exact s rest

theorem decodeInteger_itoa (n : Int) (rest : List UInt8) :
    decodeInteger 101 (itoa n ++ 101 :: rest) = .ok n rest :=
  decodeInteger_delim (fun hm => itoa_ne_e n 101 hm rfl) (atoi_itoa n)

/-- First byte of a length prefix is a digit, hence not a terminator or a
production marker. -/
theorem strEnc_head (s : List UInt8) :
    ∃ c q, strEnc s = c :: q ∧ isDigit c = true := by
  rcases hn : ntoa s.length with _ | ⟨c, q⟩
  · exact absurd hn (ntoa_ne_nil s.length)
  · refine ⟨c, q ++ 58 :: s, ?_, ntoa_head_digit _ _ _ hn⟩
    simp [strEnc, hn]

/-! ## Well-formedness for the round-trip statements

wf1 carves out the values for which encode.go followed by decode.go is lossless:
no unsupported components, slices whose type representative is a genuine zero
value with elements of exactly that type, and records all of whose fields carry
mutually distinct comma-free non-sentinel tags. -/

mutual
def wf1 : Value → Bool
  | .bytes _ => true
  | .int _ => true
  | .list z es =>
      isZeroB z && wf1 z && List.all es (fun e => sameShapeB e z) && wf1L es
  | .struct fs => decide ((namesTR fs).Nodup) && wf1F fs
  | .unsupported => false

def wf1L : List Value → Bool
  | [] => true
  | e :: es => wf1 e && wf1L es

def wf1F : List SField → Bool
  | [] => true
  | (_, none, _) :: _ => false
  | (_, some t, v) :: rest =>
      !(t.contains 44) && decide (t ≠ [45]) && wf1 v && wf1F rest
end

theorem wf1F_cons {f : SField} {rest : List SField}
    (h : wf1F (f :: rest) = true) :
    ∃ t, f.2.1 = some t ∧ (44 : UInt8) ∉ t ∧ t ≠ [45] ∧
      wf1 f.2.2 = true ∧ wf1F rest = true := by
  obtain ⟨n, tg, v⟩ := f
  match tg with
  | none => simp [wf1F] at h
  | some t =>
    rw [wf1F] at h
    simp only [Bool.and_eq_true, Bool.not_eq_true', decide_eq_true_eq] at h
    refine ⟨t, rfl, ?_, h.1.1.2, h.1.2, h.2⟩
    intro hm
    have h5 : t.contains 44 = true := List.elem_eq_true_of_mem hm
    rw [h.1.1.1] at h5
    exact absurd h5 (by simp)

theorem wf1_struct {fs : List SField} (h : wf1 (.struct fs) = true) :
    (namesTR fs).Nodup ∧ wf1F fs = true := by
  rw [wf1] at h
  simp only [Bool.and_eq_true, decide_eq_true_eq] at h
  exact h

theorem wf1_list {z : Value} {es : List Value} (h : wf1 (.list z es) = true) :
    isZeroB z = true ∧ wf1 z = true ∧ (∀ e ∈ es, sameShapeB e z = true) ∧
      wf1L es = true := by
  rw [wf1] at h
  simp only [Bool.and_eq_true, List.all_eq_true] at h
  exact ⟨h.1.1.1, h.1.1.2, h.1.2, h.2⟩

theorem wf1L_cons {e : Value} {es : List Value} (h : wf1L (e :: es) = true) :
    wf1 e = true ∧ wf1L es = true := by
  rw [wf1L, Bool.and_eq_true] at h
  exact h

/-- On a zero well-formed value, zeroOf is the identity. -/
theorem zeroOf_of_zero :
    ∀ v, isZeroB v = true → wf1 v = true → zeroOf v = v := by
  intro v
  induction v using Value.myInduction with
  | hbytes s =>
    intro hz _
    rw [isZeroB, List.isEmpty_iff] at hz
    rw [hz]
    rfl
  | hint n =>
    intro hz _
    rw [isZeroB, decide_eq_true_eq] at hz
    rw [hz]
    rfl
  | hlist z es hz hes =>
    intro h1 _
    rw [isZeroB, List.isEmpty_iff] at h1
    rw [h1]
    rfl
  | hstruct fs hfs =>
    intro h1 h2
    have h3 := (wf1_struct h2).2
    rw [isZeroB] at h1
    show Value.struct (zeroF fs) = Value.struct fs
    congr 1
    clear h2
    induction fs with
    | nil => rfl
    | cons f rest ih =>
      have hmem := fun g hg => hfs g (List.mem_cons_of_mem f hg)
      obtain ⟨n, tg, v⟩ := f
      rw [isZeroF, Bool.and_eq_true] at h1
      obtain ⟨t, ht, _, _, hwv, hwr⟩ := wf1F_cons h3
      rw [zeroF]
      rw [hfs (n, tg, v) (by simp) h1.1 hwv]
      rw [ih hmem h1.2 hwr]
  | huns =>
    intro _ h2
    simp [wf1] at h2

theorem zeroF_shape_eq :
    ∀ r1 r2, (∀ f ∈ r1, ∀ z, isZeroB z = true → wf1 z = true →
        wf1 (f : SField).2.2 = true → sameShapeB f.2.2 z = true → z = zeroOf f.2.2) →
      wf1F r1 = true → isZeroF r2 = true → wf1F r2 = true → shapeF r1 r2 = true →
      r2 = zeroF r1 := by
  intro r1
  induction r1 with
  | nil =>
    intro r2 _ _ _ _ hs
    cases r2 with
    | nil => rfl
    | cons _ _ => simp [shapeF] at hs
  | cons f1 q1 ih =>
    intro r2 ihf hw1 hz2 hw2 hs
    have hmem := fun g hg => ihf g (List.mem_cons_of_mem f1 hg)
    cases r2 with
    | nil =>
      obtain ⟨n1, t1, v1⟩ := f1
      simp [shapeF] at hs
    | cons f2 q2 =>
      obtain ⟨n1, t1, v1⟩ := f1
      obtain ⟨n2, t2, v2⟩ := f2
      rw [shapeF] at hs
      simp only [Bool.and_eq_true, decide_eq_true_eq] at hs
      obtain ⟨⟨⟨hn, ht⟩, hv⟩, hr⟩ := hs
      rw [isZeroF, Bool.and_eq_true] at hz2
      obtain ⟨ta, hta, _, _, hwa, hra⟩ := wf1F_cons hw1
      obtain ⟨tb, htb, _, _, hwb, hrb⟩ := wf1F_cons hw2
      rw [zeroF]
      have hv2 : v2 = zeroOf v1 :=
        ihf (n1, t1, v1) (by simp) v2 hz2.1 hwb hwa hv
      rw [ih q2 hmem hra hz2.2 hrb hr, ← hn, ← ht, hv2]

/-- A zero well-formed target of the same shape as a value is exactly the
zero value reflect.New would allocate for that value's type. -/
theorem target_is_zeroOf :
    ∀ e z, isZeroB z = true → wf1 z = true → wf1 e = true →
      sameShapeB e z = true → z = zeroOf e := by
  intro e
  induction e using Value.myInduction with
  | hbytes s =>
    intro z hz hwz hwe hs
    cases z <;> simp [sameShapeB] at hs
    case bytes s2 =>
      rw [isZeroB, List.isEmpty_iff] at hz
      rw [hz]
      rfl
  | hint n =>
    intro z hz hwz hwe hs
    cases z <;> simp [sameShapeB] at hs
    case int n2 =>
      rw [isZeroB, decide_eq_true_eq] at hz
      rw [hz]
      rfl
  | hlist ze ese ihz ihes =>
    intro z hz hwz hwe hs
    cases z <;> simp only [sameShapeB] at hs
    case int _ => exact absurd hs (by simp)
    case bytes _ => exact absurd hs (by simp)
    case struct _ => exact absurd hs (by simp)
    case unsupported => exact absurd hs (by simp)
    case list zz esz =>
      rw [isZeroB, List.isEmpty_iff] at hz
      subst hz
      obtain ⟨hz1, hz2, _, _⟩ := wf1_list hwz
      obtain ⟨he1, he2, _, _⟩ := wf1_list hwe
      have h4 := ihz zz hz1 hz2 he2 hs
      rw [zeroOf_of_zero ze he1 he2] at h4
      rw [h4]
      rfl
  | hstruct fse ihf =>
    intro z hz hwz hwe hs
    cases z <;> simp only [sameShapeB] at hs
    case int _ => exact absurd hs (by simp)
    case bytes _ => exact absurd hs (by simp)
    case list _ _ => exact absurd hs (by simp)
    case unsupported => exact absurd hs (by simp)
    case struct fsz =>
      rw [isZeroB] at hz
      have hwz2 := (wf1_struct hwz).2
      have hwe2 := (wf1_struct hwe).2
      show Value.struct fsz = Value.struct (zeroF fse)
      congr 1
      exact zeroF_shape_eq fse fsz ihf hwe2 hz hwz2 hs
  | huns =>
    intro z hz hwz hwe hs
    cases z <;> simp only [sameShapeB] at hs
    case int _ => exact absurd hs (by simp)
    case bytes _ => exact absurd hs (by simp)
    case list _ _ => exact absurd hs (by simp)
    case struct _ => exact absurd hs (by simp)
    case unsupported => simp [wf1] at hwz

/-- A fresh element created from the slice's type representative is a valid
decode target for any well-typed element value. -/
theorem MatchTgt_of_zero_shape {e z : Value} (hz : isZeroB z = true)
    (hwz : wf1 z = true) (hwe : wf1 e = true) (hs : sameShapeB e z = true) :
    MatchTgt z e := by
  rw [target_is_zeroOf e z hz hwz hwe hs]
  exact MatchTgt_zeroOf e

/-! ## The decoder's field map versus the encoder's tag map

Throughout, g is the (possibly partially updated) decode target's field list
and vfs the encoded value's field list; MatchTgtF g vfs says they have the
same names, tags and field types. -/

theorem resolvedName_wf {n t : List UInt8} {v : Value} (h44 : (44 : UInt8) ∉ t)
    (h45 : t ≠ [45]) : resolvedName (n, some t, v) = some t := by
  show (if t = [45] then none else some (commaHead t)) = some t
  rw [if_neg h45, commaHead_no_comma h44]

/-- Pointwise MatchTgt on optional results. -/
def ORel : Option Value → Option Value → Prop
  | none, none => True
  | some a, some b => MatchTgt a b
  | _, _ => False

theorem findRel :
    ∀ g vfs (k : List UInt8), MatchTgtF g vfs → wf1F vfs = true →
      ORel (findField k g) (lookupTagLast k vfs) := by
  intro g
  induction g with
  | nil =>
    intro vfs k hm hw
    cases vfs with
    | nil => trivial
    | cons f2 r2 =>
      obtain ⟨n2, t2, v2⟩ := f2
      exact (hm : False).elim
  | cons f1 r1 ih =>
    intro vfs k hm hw
    obtain ⟨n1, t1, v1⟩ := f1
    cases vfs with
    | nil => exact (hm : False).elim
    | cons f2 r2 =>
      obtain ⟨n2, t2, v2⟩ := f2
      obtain ⟨hn, ht, hv, hr⟩ := hm
      obtain ⟨t, ht2, h44, h45, hwv, hwr⟩ := wf1F_cons hw
      have ht2' : t2 = some t := ht2
      have ht1 : t1 = some t := by rw [ht]; exact ht2'
      have hres : resolvedName (n1, t1, v1) = some t := by
        rw [ht1]
        exact resolvedName_wf h44 h45
      have ihr := ih r2 k hr hwr
      rw [findField, lookupTagLast, hres, ht2']
      rcases hf : findField k r1 with _ | fv2 <;>
        rcases hl : lookupTagLast k r2 with _ | w2 <;>
        rw [hf, hl] at ihr
      · by_cases hk : (some t : Option (List UInt8)) = some k
        · rw [if_pos hk, if_pos hk]
          exact hv
        · rw [if_neg hk, if_neg hk]
          trivial
      · exact (ihr : False).elim
      · exact (ihr : False).elim
      · exact ihr

theorem findField_of_lookup {g vfs : List SField} {k : List UInt8} {w : Value}
    (hm : MatchTgtF g vfs) (hw : wf1F vfs = true)
    (hl : lookupTagLast k vfs = some w) :
    ∃ fv, findField k g = some fv ∧ MatchTgt fv w := by
  have h := findRel g vfs k hm hw
  rw [hl] at h
  rcases hf : findField k g with _ | fv
  · rw [hf] at h
    exact (h : False).elim
  · rw [hf] at h
    exact ⟨fv, rfl, h⟩

theorem findField_none_of_lookup_none {g vfs : List SField} {k : List UInt8}
    (hm : MatchTgtF g vfs) (hw : wf1F vfs = true)
    (hl : lookupTagLast k vfs = none) : findField k g = none := by
  have h := findRel g vfs k hm hw
  rw [hl] at h
  rcases hf : findField k g with _ | fv
  · rfl
  · rw [hf] at h
    exact (h : False).elim

theorem mem_namesTR_of_lookup :
    ∀ (fs : List SField) (k : List UInt8) (w : Value),
      lookupTagLast k fs = some w → k ∈ namesTR fs := by
  intro fs
  induction fs with
  | nil =>
    intro k w h
    simp [lookupTagLast] at h
  | cons f rest ih =>
    intro k w h
    obtain ⟨n, tg, v⟩ := f
    rw [lookupTagLast] at h
    rcases hr : lookupTagLast k rest with _ | w2
    · rw [hr] at h
      by_cases htk : tg = some k
      · subst htk
        simp [namesTR, List.filterMap_cons]
      · rw [if_neg htk] at h
        cases h
    · rw [hr] at h
      have := ih k w2 hr
      cases tg with
      | none =>
        simpa [namesTR, List.filterMap_cons] using this
      | some t =>
        simp only [namesTR, List.filterMap_cons] at this ⊢
        exact List.mem_cons_of_mem _ this

theorem lookup_of_mem_namesTR :
    ∀ (fs : List SField) (k : List UInt8), k ∈ namesTR fs →
      ∃ w, lookupTagLast k fs = some w := by
  intro fs
  induction fs with
  | nil =>
    intro k h
    simp [namesTR] at h
  | cons f rest ih =>
    intro k h
    obtain ⟨n, tg, v⟩ := f
    rw [lookupTagLast]
    rcases hr : lookupTagLast k rest with _ | w2
    · cases tg with
      | none =>
        simp only [namesTR, List.filterMap_cons] at h
        obtain ⟨w, hw⟩ := ih k h
        rw [hw] at hr
        cases hr
      | some t =>
        simp only [namesTR, List.filterMap_cons, List.mem_cons] at h
        rcases h with h | h
        · subst h
          simp
        · obtain ⟨w, hw⟩ := ih k h
          rw [hw] at hr
          cases hr
    · exact ⟨w2, rfl⟩

theorem wf1_of_lookup {k : List UInt8} {fs : List SField} {w : Value}
    (h : lookupTagLast k fs = some w) (hf : wf1F fs = true) : wf1 w = true := by
  induction fs with
  | nil => simp [lookupTagLast] at h
  | cons f rest ih =>
    obtain ⟨n, tg, v⟩ := f
    obtain ⟨t, ht2, _, _, hwv, hwr⟩ := wf1F_cons hf
    rw [lookupTagLast] at h
    rcases hr : lookupTagLast k rest with _ | w2
    · rw [hr] at h
      by_cases htk : tg = some k
      · rw [if_pos htk] at h
        cases h
        exact hwv
      · rw [if_neg htk] at h
        cases h
    · rw [hr] at h
      cases h
      exact ih hr hwr

theorem setField_MatchTgtF :
    ∀ g vfs (k : List UInt8) (w : Value), MatchTgtF g vfs → wf1F vfs = true →
      lookupTagLast k vfs = some w → MatchTgtF (setField k w g) vfs := by
  intro g
  induction g with
  | nil =>
    intro vfs k w hm hw hl
    cases vfs with
    | nil => trivial
    | cons f2 r2 =>
      obtain ⟨n2, t2, v2⟩ := f2
      exact (hm : False).elim
  | cons f1 r1 ih =>
    intro vfs k w hm hw hl
    obtain ⟨n1, t1, v1⟩ := f1
    cases vfs with
    | nil => exact (hm : False).elim
    | cons f2 r2 =>
      obtain ⟨n2, t2, v2⟩ := f2
      obtain ⟨hn, ht, hv, hr⟩ := hm
      obtain ⟨t, ht2, h44, h45, hwv, hwr⟩ := wf1F_cons hw
      have ht2' : t2 = some t := ht2
      have ht1 : t1 = some t := by rw [ht]; exact ht2'
      have hres : resolvedName (n1, t1, v1) = some t := by
        rw [ht1]
        exact resolvedName_wf h44 h45
      rw [lookupTagLast] at hl
      rw [setField]
      rcases hf : findField k r1 with _ | fv2
      · have hlr : lookupTagLast k r2 = none := by
          have h0 := findRel r1 r2 k hr hwr
          rw [hf] at h0
          rcases hl2 : lookupTagLast k r2 with _ | w2
          · rfl
          · rw [hl2] at h0
            exact (h0 : False).elim
        rw [hlr] at hl
        by_cases htk : (some t : Option (List UInt8)) = some k
        · rw [hres]
          rw [if_pos htk]
          rw [ht2', if_pos htk] at hl
          have hww := Option.some.inj hl
          rw [← hww]
          exact ⟨hn, ht, MatchTgt_refl v2, hr⟩
        · rw [ht2', if_neg htk] at hl
          cases hl
      · have hlr : ∃ w2, lookupTagLast k r2 = some w2 := by
          have h0 := findRel r1 r2 k hr hwr
          rw [hf] at h0
          rcases hl2 : lookupTagLast k r2 with _ | w2
          · rw [hl2] at h0
            exact (h0 : False).elim
          · exact ⟨w2, rfl⟩
        obtain ⟨w2, hw2⟩ := hlr
        rw [hw2] at hl
        have hww := Option.some.inj hl
        rw [← hww]
        exact ⟨hn, ht, hv, ih r2 k w2 hr hwr hw2⟩

/-- The positions a key list has not yet touched agree with the original
fields.  (Only the values are constrained; names and tags are governed by
MatchTgtF.) -/
def AgreeOut (ks : List (List UInt8)) : List SField → List SField → Prop
  | [], [] => True
  | f1 :: r1, f2 :: r2 =>
      (∀ t, (f2 : SField).2.1 = some t → t ∉ ks → f1 = f2) ∧ AgreeOut ks r1 r2
  | _, _ => False

theorem AgreeOut_nil_eq :
    ∀ g vfs, AgreeOut [] g vfs → wf1F vfs = true → g = vfs := by
  intro g
  induction g with
  | nil =>
    intro vfs ha hw
    cases vfs with
    | nil => rfl
    | cons f2 r2 => exact (ha : False).elim
  | cons f1 r1 ih =>
    intro vfs ha hw
    cases vfs with
    | nil => exact (ha : False).elim
    | cons f2 r2 =>
      obtain ⟨hhead, htail⟩ := ha
      obtain ⟨t, ht2, _, _, _, hwr⟩ := wf1F_cons hw
      rw [hhead t ht2 (by simp), ih r2 htail hwr]

theorem AgreeOut_init :
    ∀ g vfs ks, MatchTgtF g vfs → (∀ t, t ∈ namesTR vfs → t ∈ ks) →
      AgreeOut ks g vfs := by
  intro g
  induction g with
  | nil =>
    intro vfs ks hm hmem
    cases vfs with
    | nil => trivial
    | cons f2 r2 =>
      obtain ⟨n2, t2, v2⟩ := f2
      exact (hm : False).elim
  | cons f1 r1 ih =>
    intro vfs ks hm hmem
    obtain ⟨n1, t1, v1⟩ := f1
    cases vfs with
    | nil => exact (hm : False).elim
    | cons f2 r2 =>
      obtain ⟨n2, t2, v2⟩ := f2
      obtain ⟨hn, ht, hv, hr⟩ := hm
      refine ⟨?_, ?_⟩
      · intro t htag hnot
        refine absurd (hmem t ?_) hnot
        have htag2 : t2 = some t := htag
        rw [htag2]
        simp [namesTR, List.filterMap_cons]
      · exact ih r2 ks hr (fun t htm => hmem t (by
          rcases hcase : t2 with _ | tc
          · simpa [namesTR, List.filterMap_cons, hcase] using htm
          · simp only [namesTR, List.filterMap_cons, hcase] at htm ⊢
            exact List.mem_cons_of_mem _ htm))

theorem AgreeOut_weaken :
    ∀ g vfs (k : List UInt8) ks, AgreeOut (k :: ks) g vfs →
      k ∉ namesTR vfs → AgreeOut ks g vfs := by
  intro g
  induction g with
  | nil =>
    intro vfs k ks ha hk
    cases vfs with
    | nil => trivial
    | cons f2 r2 => exact (ha : False).elim
  | cons f1 r1 ih =>
    intro vfs k ks ha hk
    cases vfs with
    | nil => exact (ha : False).elim
    | cons f2 r2 =>
      obtain ⟨n2, t2, v2⟩ := f2
      obtain ⟨hhead, htail⟩ := ha
      refine ⟨?_, ?_⟩
      · intro t htag hnot
        refine hhead t htag ?_
        intro hmem
        rcases List.mem_cons.mp hmem with hh | hh
        · subst hh
          refine hk ?_
          have htag2 : t2 = some t := htag
          rw [htag2]
          simp [namesTR, List.filterMap_cons]
        · exact hnot hh
      · refine ih r2 k ks htail ?_
        intro hmem
        refine hk ?_
        rcases hcase : t2 with _ | tc
        · simpa [namesTR, List.filterMap_cons, hcase] using hmem
        · simp only [namesTR, List.filterMap_cons, hcase]
          exact List.mem_cons_of_mem _ hmem

theorem setField_AgreeOut :
    ∀ g vfs (k : List UInt8) (w : Value) ks, MatchTgtF g vfs →
      wf1F vfs = true → (namesTR vfs).Nodup →
      lookupTagLast k vfs = some w → k ∉ ks →
      AgreeOut (k :: ks) g vfs → AgreeOut ks (setField k w g) vfs := by
  intro g
  induction g with
  | nil =>
    intro vfs k w ks hm hw hnd hl hks ha
    cases vfs with
    | nil => trivial
    | cons f2 r2 =>
      obtain ⟨n2, t2, v2⟩ := f2
      exact (hm : False).elim
  | cons f1 r1 ih =>
    intro vfs k w ks hm hw hnd hl hks ha
    obtain ⟨n1, t1, v1⟩ := f1
    cases vfs with
    | nil => exact (hm : False).elim
    | cons f2 r2 =>
      obtain ⟨n2, t2, v2⟩ := f2
      obtain ⟨hn, ht, hv, hr⟩ := hm
      obtain ⟨hhead, htail⟩ := ha
      obtain ⟨t, ht2, h44, h45, hwv, hwr⟩ := wf1F_cons hw
      have ht2' : t2 = some t := ht2
      have ht1 : t1 = some t := by rw [ht]; exact ht2'
      have hres : resolvedName (n1, t1, v1) = some t := by
        rw [ht1]
        exact resolvedName_wf h44 h45
      have hnames : namesTR ((n2, t2, v2) :: r2) = t :: namesTR r2 := by
        rw [ht2']
        simp [namesTR, List.filterMap_cons]
      rw [hnames] at hnd
      have hnd1 : t ∉ namesTR r2 := (List.nodup_cons.mp hnd).1
      have hnd2 : (namesTR r2).Nodup := (List.nodup_cons.mp hnd).2
      rw [lookupTagLast] at hl
      rw [setField]
      rcases hf : findField k r1 with _ | fv2
      · have hlr : lookupTagLast k r2 = none := by
          have h0 := findRel r1 r2 k hr hwr
          rw [hf] at h0
          rcases hl2 : lookupTagLast k r2 with _ | w2
          · rfl
          · rw [hl2] at h0
            exact (h0 : False).elim
        rw [hlr] at hl
        rw [ht2'] at hl
        by_cases htk : (some t : Option (List UInt8)) = some k
        · rw [hres, if_pos htk]
          rw [if_pos htk] at hl
          have hww := Option.some.inj hl
          have htkk : t = k := Option.some.inj htk
          refine ⟨?_, ?_⟩
          · intro t3 htag _
            have ht3 : t3 = t := by
              have h5 : some t3 = some t := by rw [← htag]; exact ht2'
              exact Option.some.inj h5
            rw [hn, ht, ← hww]
          · exact AgreeOut_weaken r1 r2 k ks htail (by rw [← htkk]; exact hnd1)
        · rw [if_neg htk] at hl
          cases hl
      · have hlr : ∃ w2, lookupTagLast k r2 = some w2 := by
          have h0 := findRel r1 r2 k hr hwr
          rw [hf] at h0
          rcases hl2 : lookupTagLast k r2 with _ | w2
          · rw [hl2] at h0
            exact (h0 : False).elim
          · exact ⟨w2, rfl⟩
        obtain ⟨w2, hw2⟩ := hlr
        have hkmem : k ∈ namesTR r2 := mem_namesTR_of_lookup r2 k w2 hw2
        have htnek : t ≠ k := by
          intro he
          rw [he] at hnd1
          exact hnd1 hkmem
        rw [hw2] at hl
        have hww := Option.some.inj hl
        refine ⟨?_, ?_⟩
        · intro t3 htag hnot
          have ht3 : t3 = t := by
            have h5 : some t3 = some t := by rw [← htag]; exact ht2'
            exact Option.some.inj h5
          refine hhead t3 htag ?_
          intro hmem
          rcases List.mem_cons.mp hmem with hh | hh
          · rw [ht3] at hh
            exact htnek hh
          · exact hnot hh
        · refine ih r2 k w ks hr hwr hnd2 ?_ hks htail
          rw [← hww]
          exact hw2

/-- The field updates decode.go performs while consuming the dictionary
entries for the given keys (each key stores the encoded value the wire carries
for it, i.e. the original field value). -/
def setKeys (vfs : List SField) (g : List SField) : List (List UInt8) → List SField
  | [] => g
  | k :: ks =>
      match lookupTagLast k vfs with
      | some w => setKeys vfs (setField k w g) ks
      | none => setKeys vfs g ks

theorem setKeys_complete :
    ∀ (ks : List (List UInt8)) (g vfs : List SField), MatchTgtF g vfs →
      wf1F vfs = true → (namesTR vfs).Nodup → ks.Nodup →
      (∀ k ∈ ks, k ∈ namesTR vfs) → AgreeOut ks g vfs →
      setKeys vfs g ks = vfs := by
  intro ks
  induction ks with
  | nil =>
    intro g vfs hm hw _ _ _ ha
    exact AgreeOut_nil_eq g vfs ha hw
  | cons k ks1 ih =>
    intro g vfs hm hw hnd hknd hmem ha
    obtain ⟨w, hlw⟩ := lookup_of_mem_namesTR vfs k (hmem k (by simp))
    rw [setKeys, hlw]
    refine ih (setField k w g) vfs (setField_MatchTgtF g vfs k w hm hw hlw) hw hnd
      (List.nodup_cons.mp hknd).2 (fun k2 hk2 => hmem k2 (List.mem_cons_of_mem _ hk2))
      (setField_AgreeOut g vfs k w ks1 hm hw hnd hlw (List.nodup_cons.mp hknd).1 ha)

/-! ## Decode soundness on encoder output -/

theorem strEnc_len2 (s : List UInt8) : 2 ≤ (strEnc s).length := by
  rw [strEnc]
  have := ntoa_ne_nil s.length
  rcases h : ntoa s.length with _ | ⟨c, q⟩
  · exact absurd h this
  · simp
    omega

theorem encV_len2 {v : Value} (h : wf1 v = true) : 2 ≤ (encV v).length := by
  match v with
  | .bytes s =>
    rw [encV_bytes]
    exact strEnc_len2 s
  | .int n =>
    rw [encV_int]
    simp
  | .list z es =>
    rw [encV_list]
    simp
  | .struct fs =>
    rw [encV_struct]
    simp
  | .unsupported => simp [wf1] at h

theorem encV_head {v : Value} (h : wf1 v = true) :
    ∃ c q, encV v = c :: q ∧ c ≠ 101 := by
  match v with
  | .bytes s =>
    obtain ⟨c, q, hcq, hd⟩ := strEnc_head s
    exact ⟨c, q, by rw [encV_bytes]; exact hcq, digit_ne_e hd⟩
  | .int n => exact ⟨105, itoa n ++ [101], encV_int n, by decide⟩
  | .list z es => exact ⟨108, encL es ++ [101], encV_list z es, by decide⟩
  | .struct fs =>
    exact ⟨100, encP (sortKeys (namesTR fs)) fs ++ [101], encV_struct fs, by decide⟩
  | .unsupported => simp [wf1] at h

theorem next_ne {c b : UInt8} {q : List UInt8} (h : b ≠ c) :
    next c (b :: q) = .ok false (b :: q) := by
  rw [next, if_neg h]

theorem next_eq (c : UInt8) (q : List UInt8) : next c (c :: q) = .ok true q := by
  rw [next, if_pos rfl]

theorem decode_sound :
    ∀ f,
      (∀ v tgt rest, 2 * (encV v).length ≤ f → wf1 v = true → MatchTgt tgt v →
        decodeV f tgt (encV v ++ rest) = .ok v rest) ∧
      (∀ z es rest, 2 * (encL es).length + 2 ≤ f →
        isZeroB z = true → wf1 z = true →
        (∀ e ∈ es, sameShapeB e z = true) → wf1L es = true →
        decodeL f z (encL es ++ 101 :: rest) = .ok es rest) ∧
      (∀ ks g vfs rest, 2 * (encP ks vfs).length + 2 ≤ f →
        MatchTgtF g vfs → wf1F vfs = true →
        (∀ k ∈ ks, k ∈ namesTR vfs) →
        decodeS f g (encP ks vfs ++ 101 :: rest) = .ok (setKeys vfs g ks) rest) := by
  intro f
  induction f using Nat.strong_induction_on with
  | _ f ih =>
    refine ⟨?_, ?_, ?_⟩
    · intro v tgt rest hf hw hm
      have hl2 := encV_len2 hw
      obtain ⟨f1, rfl⟩ : ∃ f1, f = f1 + 1 := ⟨f - 1, by omega⟩
      match v, tgt with
      | .bytes s, .bytes b =>
        rw [encV_bytes]
        show (match decodeString (strEnc s ++ rest) with
              | DRes.ok b1 r1 => DRes.ok (Value.bytes b1) r1
              | DRes.err e => DRes.err e
              | DRes.panic => DRes.panic
              | DRes.out => DRes.out) = DRes.ok (Value.bytes s) rest
        rw [decodeString_strEnc]
      | .int n, .int m =>
        rw [encV_int]
        have h1 : (105 : UInt8) :: (itoa n ++ [101]) ++ rest =
            105 :: (itoa n ++ 101 :: rest) := by
          simp
        rw [h1]
        show (match next 105 (105 :: (itoa n ++ 101 :: rest)) with
              | DRes.ok true s1 =>
                  (match decodeInteger 101 s1 with
                   | DRes.ok n1 r1 => DRes.ok (Value.int n1) r1
                   | DRes.err e => DRes.err e
                   | DRes.panic => DRes.panic
                   | DRes.out => DRes.out)
              | DRes.ok false _ => DRes.err DErr.notInt
              | DRes.err e => DRes.err e
              | DRes.panic => DRes.panic
              | DRes.out => DRes.out) = DRes.ok (Value.int n) rest
        rw [next_eq]
        show (match decodeInteger 101 (itoa n ++ 101 :: rest) with
              | DRes.ok n1 r1 => DRes.ok (Value.int n1) r1
              | DRes.err e => DRes.err e
              | DRes.panic => DRes.panic
              | DRes.out => DRes.out) = DRes.ok (Value.int n) rest
        rw [decodeInteger_itoa]
      | .list z es, .list z2 prior =>
        have hz : z2 = z := hm
        subst hz
        obtain ⟨hz1, hz2, hsh, hwl⟩ := wf1_list hw
        rw [encV_list]
        have h1 : (108 : UInt8) :: (encL es ++ [101]) ++ rest =
            108 :: (encL es ++ 101 :: rest) := by
          simp
        rw [h1]
        show (match next 108 (108 :: (encL es ++ 101 :: rest)) with
              | DRes.ok true s1 =>
                  (match decodeL f1 z2 s1 with
                   | DRes.ok es1 r1 => DRes.ok (Value.list z2 es1) r1
                   | DRes.err e => DRes.err e
                   | DRes.panic => DRes.panic
                   | DRes.out => DRes.out)
              | DRes.ok false _ => DRes.err DErr.notSlice
              | DRes.err e => DRes.err e
              | DRes.panic => DRes.panic
              | DRes.out => DRes.out) = DRes.ok (Value.list z2 es) rest
        rw [next_eq]
        show (match decodeL f1 z2 (encL es ++ 101 :: rest) with
              | DRes.ok es1 r1 => DRes.ok (Value.list z2 es1) r1
              | DRes.err e => DRes.err e
              | DRes.panic => DRes.panic
              | DRes.out => DRes.out) = DRes.ok (Value.list z2 es) rest
        rw [encV_list] at hf
        simp only [List.length_cons, List.length_append] at hf
        rw [(ih f1 (by omega)).2.1 z2 es rest (by omega) hz1 hz2 hsh hwl]
      | .struct fs, .struct g =>
        have hmf : MatchTgtF g fs := hm
        obtain ⟨hnd, hwf⟩ := wf1_struct hw
        rw [encV_struct]
        have h1 : (100 : UInt8) :: (encP (sortKeys (namesTR fs)) fs ++ [101]) ++ rest =
            100 :: (encP (sortKeys (namesTR fs)) fs ++ 101 :: rest) := by
          simp
        rw [h1]
        show (match next 100 (100 :: (encP (sortKeys (namesTR fs)) fs ++ 101 :: rest)) with
              | DRes.ok true s1 =>
                  (match decodeS f1 g s1 with
                   | DRes.ok fs1 r1 => DRes.ok (Value.struct fs1) r1
                   | DRes.err e => DRes.err e
                   | DRes.panic => DRes.panic
                   | DRes.out => DRes.out)
              | DRes.ok false _ => DRes.err DErr.notStruct
              | DRes.err e => DRes.err e
              | DRes.panic => DRes.panic
              | DRes.out => DRes.out) = DRes.ok (Value.struct fs) rest
        rw [next_eq]
        show (match decodeS f1 g (encP (sortKeys (namesTR fs)) fs ++ 101 :: rest) with
              | DRes.ok fs1 r1 => DRes.ok (Value.struct fs1) r1
              | DRes.err e => DRes.err e
              | DRes.panic => DRes.panic
              | DRes.out => DRes.out) = DRes.ok (Value.struct fs) rest
        rw [encV_struct] at hf
        simp only [List.length_cons, List.length_append] at hf
        have hperm := List.perm_insertionSort LeB (namesTR fs)
        have hmem : ∀ k ∈ sortKeys (namesTR fs), k ∈ namesTR fs :=
          fun k hk => hperm.mem_iff.mp hk
        rw [(ih f1 (by omega)).2.2 (sortKeys (namesTR fs)) g fs rest (by omega)
          hmf hwf hmem]
        rw [setKeys_complete (sortKeys (namesTR fs)) g fs hmf hwf hnd
          (hperm.nodup_iff.mpr hnd) hmem
          (AgreeOut_init g fs (sortKeys (namesTR fs)) hmf
            (fun t htm => hperm.mem_iff.mpr htm))]
      | .unsupported, tgt => simp [wf1] at hw
      | .bytes s, .int m => exact (hm : False).elim
      | .bytes s, .list a b => exact (hm : False).elim
      | .bytes s, .struct a => exact (hm : False).elim
      | .bytes s, .unsupported => exact (hm : False).elim
      | .int n, .bytes b => exact (hm : False).elim
      | .int n, .list a b => exact (hm : False).elim
      | .int n, .struct a => exact (hm : False).elim
      | .int n, .unsupported => exact (hm : False).elim
      | .list z es, .bytes b => exact (hm : False).elim
      | .list z es, .int m => exact (hm : False).elim
      | .list z es, .struct a => exact (hm : False).elim
      | .list z es, .unsupported => exact (hm : False).elim
      | .struct fs, .bytes b => exact (hm : False).elim
      | .struct fs, .int m => exact (hm : False).elim
      | .struct fs, .list a b => exact (hm : False).elim
      | .struct fs, .unsupported => exact (hm : False).elim
    · intro z es rest hf hz1 hz2 hsh hwl
      obtain ⟨f1, rfl⟩ : ∃ f1, f = f1 + 1 := ⟨f - 1, by omega⟩
      cases es with
      | nil =>
        rw [encL_nil]
        show (match next 101 ((101 : UInt8) :: rest) with
              | DRes.ok true r1 => DRes.ok ([] : List Value) r1
              | DRes.ok false s1 =>
                  (match decodeV f1 z s1 with
                   | DRes.ok v s2 =>
                       (match decodeL f1 z s2 with
                        | DRes.ok vs s3 => DRes.ok (v :: vs) s3
                        | DRes.err e => DRes.err e
                        | DRes.panic => DRes.panic
                        | DRes.out => DRes.out)
                   | DRes.err e => DRes.err e
                   | DRes.panic => DRes.panic
                   | DRes.out => DRes.out)
              | DRes.err e => DRes.err e
              | DRes.panic => DRes.panic
              | DRes.out => DRes.out) = DRes.ok ([] : List Value) rest
        rw [next_eq]
      | cons e es1 =>
        have hwe := (wf1L_cons hwl).1
        have hwes := (wf1L_cons hwl).2
        rw [encL_cons]
        obtain ⟨c, q, hcq, hc⟩ := encV_head hwe
        have h1 : (encV e ++ encL es1) ++ 101 :: rest =
            encV e ++ (encL es1 ++ 101 :: rest) := by
          simp
        rw [h1]
        have hnext : next 101 (encV e ++ (encL es1 ++ 101 :: rest)) =
            DRes.ok false (encV e ++ (encL es1 ++ 101 :: rest)) := by
          rw [hcq, List.cons_append]
          exact next_ne hc
        show (match next 101 (encV e ++ (encL es1 ++ 101 :: rest)) with
              | DRes.ok true r1 => DRes.ok ([] : List Value) r1
              | DRes.ok false s1 =>
                  (match decodeV f1 z s1 with
                   | DRes.ok v s2 =>
                       (match decodeL f1 z s2 with
                        | DRes.ok vs s3 => DRes.ok (v :: vs) s3
                        | DRes.err e => DRes.err e
                        | DRes.panic => DRes.panic
                        | DRes.out => DRes.out)
                   | DRes.err e => DRes.err e
                   | DRes.panic => DRes.panic
                   | DRes.out => DRes.out)
              | DRes.err e => DRes.err e
              | DRes.panic => DRes.panic
              | DRes.out => DRes.out) = DRes.ok (e :: es1) rest
        rw [hnext]
        show (match decodeV f1 z (encV e ++ (encL es1 ++ 101 :: rest)) with
              | DRes.ok v s2 =>
                  (match decodeL f1 z s2 with
                   | DRes.ok vs s3 => DRes.ok (v :: vs) s3
                   | DRes.err e => DRes.err e
                   | DRes.panic => DRes.panic
                   | DRes.out => DRes.out)
              | DRes.err e => DRes.err e
              | DRes.panic => DRes.panic
              | DRes.out => DRes.out) = DRes.ok (e :: es1) rest
        rw [encL_cons] at hf
        simp only [List.length_append] at hf
        have hml : MatchTgt z e :=
          MatchTgt_of_zero_shape hz1 hz2 hwe (hsh e (by simp))
        have hl2e := encV_len2 hwe
        rw [(ih f1 (by omega)).1 e z (encL es1 ++ 101 :: rest) (by omega) hwe hml]
        show (match decodeL f1 z (encL es1 ++ 101 :: rest) with
              | DRes.ok vs s3 => DRes.ok (e :: vs) s3
              | DRes.err e => DRes.err e
              | DRes.panic => DRes.panic
              | DRes.out => DRes.out) = DRes.ok (e :: es1) rest
        rw [(ih f1 (by omega)).2.1 z es1 rest (by omega) hz1 hz2
          (fun e2 he2 => hsh e2 (List.mem_cons_of_mem _ he2)) hwes]
    · intro ks g vfs rest hf hm hw hmem
      obtain ⟨f1, rfl⟩ : ∃ f1, f = f1 + 1 := ⟨f - 1, by omega⟩
      cases ks with
      | nil =>
        rw [encP_nil]
        show (match next 101 ((101 : UInt8) :: rest) with
              | DRes.ok true r1 => DRes.ok g r1
              | DRes.ok false s1 =>
                  (match decodeString s1 with
                   | DRes.ok k s2 =>
                       (match findField k g with
                        | some fv =>
                            (match decodeV f1 fv s2 with
                             | DRes.ok v1 s3 => decodeS f1 (setField k v1 g) s3
                             | DRes.err e => DRes.err e
                             | DRes.panic => DRes.panic
                             | DRes.out => DRes.out)
                        | none =>
                            (match discardD f1 s2 with
                             | DRes.ok _ s3 => decodeS f1 g s3
                             | DRes.err e => DRes.err e
                             | DRes.panic => DRes.panic
                             | DRes.out => DRes.out))
                   | DRes.err e => DRes.err e
                   | DRes.panic => DRes.panic
                   | DRes.out => DRes.out)
              | DRes.err e => DRes.err e
              | DRes.panic => DRes.panic
              | DRes.out => DRes.out) = DRes.ok (setKeys vfs g []) rest
        rw [next_eq]
        rfl
      | cons k ks1 =>
        obtain ⟨w, hlw⟩ := lookup_of_mem_namesTR vfs k (hmem k (by simp))
        have hweq : (match lookupTagLast k vfs with
            | some v => encV v
            | none => []) = encV w := by
          rw [hlw]
        rw [encP_cons, hweq]
        obtain ⟨c, q, hcq, hd⟩ := strEnc_head k
        have h1 : (strEnc k ++ encV w) ++ encP ks1 vfs ++ 101 :: rest =
            strEnc k ++ (encV w ++ (encP ks1 vfs ++ 101 :: rest)) := by
          simp
        rw [h1]
        have hnext : next 101 (strEnc k ++ (encV w ++ (encP ks1 vfs ++ 101 :: rest))) =
            DRes.ok false (strEnc k ++ (encV w ++ (encP ks1 vfs ++ 101 :: rest))) := by
          rw [hcq, List.cons_append]
          exact next_ne (digit_ne_e hd)
        show (match next 101 (strEnc k ++ (encV w ++ (encP ks1 vfs ++ 101 :: rest))) with
              | DRes.ok true r1 => DRes.ok g r1
              | DRes.ok false s1 =>
                  (match decodeString s1 with
                   | DRes.ok k2 s2 =>
                       (match findField k2 g with
                        | some fv =>
                            (match decodeV f1 fv s2 with
                             | DRes.ok v1 s3 => decodeS f1 (setField k2 v1 g) s3
                             | DRes.err e => DRes.err e
                             | DRes.panic => DRes.panic
                             | DRes.out => DRes.out)
                        | none =>
                            (match discardD f1 s2 with
                             | DRes.ok _ s3 => decodeS f1 g s3
                             | DRes.err e => DRes.err e
                             | DRes.panic => DRes.panic
                             | DRes.out => DRes.out))
                   | DRes.err e => DRes.err e
                   | DRes.panic => DRes.panic
                   | DRes.out => DRes.out)
              | DRes.err e => DRes.err e
              | DRes.panic => DRes.panic
              | DRes.out => DRes.out) = DRes.ok (setKeys vfs g (k :: ks1)) rest
        rw [hnext]
        show (match decodeString (strEnc k ++ (encV w ++ (encP ks1 vfs ++ 101 :: rest))) with
              | DRes.ok k2 s2 =>
                  (match findField k2 g with
                   | some fv =>
                       (match decodeV f1 fv s2 with
                        | DRes.ok v1 s3 => decodeS f1 (setField k2 v1 g) s3
                        | DRes.err e => DRes.err e
                        | DRes.panic => DRes.panic
                        | DRes.out => DRes.out)
                   | none =>
                       (match discardD f1 s2 with
                        | DRes.ok _ s3 => decodeS f1 g s3
                        | DRes.err e => DRes.err e
                        | DRes.panic => DRes.panic
                        | DRes.out => DRes.out))
              | DRes.err e => DRes.err e
              | DRes.panic => DRes.panic
              | DRes.out => DRes.out) = DRes.ok (setKeys vfs g (k :: ks1)) rest
        rw [decodeString_strEnc]
        obtain ⟨fv, hfv, hmfv⟩ := findField_of_lookup hm hw hlw
        show (match findField k g with
              | some fv =>
                  (match decodeV f1 fv (encV w ++ (encP ks1 vfs ++ 101 :: rest)) with
                   | DRes.ok v1 s3 => decodeS f1 (setField k v1 g) s3
                   | DRes.err e => DRes.err e
                   | DRes.panic => DRes.panic
                   | DRes.out => DRes.out)
              | none =>
                  (match discardD f1 (encV w ++ (encP ks1 vfs ++ 101 :: rest)) with
                   | DRes.ok _ s3 => decodeS f1 g s3
                   | DRes.err e => DRes.err e
                   | DRes.panic => DRes.panic
                   | DRes.out => DRes.out)) = DRes.ok (setKeys vfs g (k :: ks1)) rest
        rw [hfv]
        show (match decodeV f1 fv (encV w ++ (encP ks1 vfs ++ 101 :: rest)) with
              | DRes.ok v1 s3 => decodeS f1 (setField k v1 g) s3
              | DRes.err e => DRes.err e
              | DRes.panic => DRes.panic
              | DRes.out => DRes.out) = DRes.ok (setKeys vfs g (k :: ks1)) rest
        rw [encP_cons, hweq] at hf
        simp only [List.length_append] at hf
        have hww := wf1_of_lookup hlw hw
        have hsk := strEnc_len2 k
        rw [(ih f1 (by omega)).1 w fv (encP ks1 vfs ++ 101 :: rest) (by omega) hww hmfv]
        show decodeS f1 (setField k w g) (encP ks1 vfs ++ 101 :: rest) =
            DRes.ok (setKeys vfs g (k :: ks1)) rest
        rw [(ih f1 (by omega)).2.2 ks1 (setField k w g) vfs rest (by omega)
          (setField_MatchTgtF g vfs k w hm hw hlw) hw
          (fun k2 hk2 => hmem k2 (List.mem_cons_of_mem _ hk2))]
        rw [setKeys, hlw]

/-- Decode consumes exactly one encoded value off the front of the stream. -/
theorem Decode_encV {v tgt : Value} {rest : List UInt8} (hw : wf1 v = true)
    (hm : MatchTgt tgt v) : Decode tgt (encV v ++ rest) = .ok v rest := by
  rw [Decode]
  refine (decode_sound _).1 v tgt rest ?_ hw hm
  simp only [List.length_append]
  omega

theorem noUnsup_encV_head {v : Value} (h : noUnsupB v = true) :
    ∃ c q, encV v = c :: q ∧ c ≠ 101 := by
  match v with
  | .bytes s =>
    obtain ⟨c, q, hcq, hd⟩ := strEnc_head s
    exact ⟨c, q, by rw [encV_bytes]; exact hcq, digit_ne_e hd⟩
  | .int n => exact ⟨105, itoa n ++ [101], encV_int n, by decide⟩
  | .list z es => exact ⟨108, encL es ++ [101], encV_list z es, by decide⟩
  | .struct fs =>
    exact ⟨100, encP (sortKeys (namesTR fs)) fs ++ [101], encV_struct fs, by decide⟩
  | .unsupported => simp [noUnsupB] at h

theorem noUnsup_encV_len2 {v : Value} (h : noUnsupB v = true) :
    2 ≤ (encV v).length := by
  match v with
  | .bytes s =>
    rw [encV_bytes]
    exact strEnc_len2 s
  | .int n =>
    rw [encV_int]
    simp
  | .list z es =>
    rw [encV_list]
    simp
  | .struct fs =>
    rw [encV_struct]
    simp
  | .unsupported => simp [noUnsupB] at h

/-- Discarding one length-prefixed byte string (the digit branch of discard):
read the length through the colon and Discard that many bytes. -/
theorem discardD_strEnc (k rest : List UInt8) (f1 : Nat) :
    discardD (f1 + 1) (strEnc k ++ rest) = .ok () rest := by
  obtain ⟨c, q, hcq, hd⟩ := strEnc_head k
  have hpk : peek1 (strEnc k ++ rest) = .ok c (strEnc k ++ rest) := by
    rw [hcq, List.cons_append]
    rfl
  show (match peek1 (strEnc k ++ rest) with
        | DRes.ok c _ =>
            if isDigit c then
              match readBytesTo 58 (strEnc k ++ rest) with
              | DRes.ok p r1 =>
                  (match atoi p with
                   | some n =>
                       if n < 0 then DRes.err DErr.negativeCount
                       else if n.toNat ≤ r1.length then DRes.ok () (r1.drop n.toNat)
                       else DRes.err DErr.eof
                   | none => DRes.err DErr.atoiSyntax)
              | DRes.err e => DRes.err e
              | DRes.panic => DRes.panic
              | DRes.out => DRes.out
            else if c = 105 then
              match readBytesTo 101 (strEnc k ++ rest) with
              | DRes.ok _ r1 => DRes.ok () r1
              | DRes.err e => DRes.err e
              | DRes.panic => DRes.panic
              | DRes.out => DRes.out
            else if c = 108 then
              match readByte (strEnc k ++ rest) with
              | DRes.ok _ s1 => discardL f1 s1
              | DRes.err e => DRes.err e
              | DRes.panic => DRes.panic
              | DRes.out => DRes.out
            else if c = 100 then
              match readByte (strEnc k ++ rest) with
              | DRes.ok _ s1 => discardDict f1 s1
              | DRes.err e => DRes.err e
              | DRes.panic => DRes.panic
              | DRes.out => DRes.out
            else DRes.err DErr.invalidChar
        | DRes.err e => DRes.err e
        | DRes.panic => DRes.panic
        | DRes.out => DRes.out) = DRes.ok () rest
  rw [hpk]
  show (if isDigit c then
          match readBytesTo 58 (strEnc k ++ rest) with
          | DRes.ok p r1 =>
              (match atoi p with
               | some n =>
                   if n < 0 then DRes.err DErr.negativeCount
                   else if n.toNat ≤ r1.length then DRes.ok () (r1.drop n.toNat)
                   else DRes.err DErr.eof
               | none => DRes.err DErr.atoiSyntax)
          | DRes.err e => DRes.err e
          | DRes.panic => DRes.panic
          | DRes.out => DRes.out
        else if c = 105 then
          match readBytesTo 101 (strEnc k ++ rest) with
          | DRes.ok _ r1 => DRes.ok () r1
          | DRes.err e => DRes.err e
          | DRes.panic => DRes.panic
          | DRes.out => DRes.out
        else if c = 108 then
          match readByte (strEnc k ++ rest) with
          | DRes.ok _ s1 => discardL f1 s1
          | DRes.err e => DRes.err e
          | DRes.panic => DRes.panic
          | DRes.out => DRes.out
        else if c = 100 then
          match readByte (strEnc k ++ rest) with
          | DRes.ok _ s1 => discardDict f1 s1
          | DRes.err e => DRes.err e
          | DRes.panic => DRes.panic
          | DRes.out => DRes.out
        else DRes.err DErr.invalidChar) = DRes.ok () rest
  rw [if_pos hd]
  have hsplit : strEnc k ++ rest = ntoa k.length ++ 58 :: (k ++ rest) := by
    simp [strEnc]
  rw [hsplit, readBytesTo_payload (fun hm => ntoa_ne_colon k.length 58 hm rfl)]
  show (match atoi (ntoa k.length) with
        | some n =>
            if n < 0 then DRes.err DErr.negativeCount
            else if n.toNat ≤ (k ++ rest).length then
              DRes.ok () ((k ++ rest).drop n.toNat)
            else DRes.err DErr.eof
        | none => DRes.err DErr.atoiSyntax) = DRes.ok () rest
  rw [atoi_ntoa]
  show (if (Int.ofNat k.length) < 0 then DRes.err DErr.negativeCount
        else if (Int.ofNat k.length).toNat ≤ (k ++ rest).length then
          DRes.ok () ((k ++ rest).drop (Int.ofNat k.length).toNat)
        else DRes.err DErr.eof) = DRes.ok () rest
  rw [if_neg (by exact Int.not_lt.mpr (Int.ofNat_nonneg k.length))]
  rw [show (Int.ofNat k.length).toNat = k.length from rfl]
  rw [if_pos (by simp), List.drop_left]

/-- discard consumes exactly one encoded value, whatever its shape. -/
theorem discard_sound :
    ∀ f,
      (∀ w rest, 2 * (encV w).length ≤ f → noUnsupB w = true →
        discardD f (encV w ++ rest) = .ok () rest) ∧
      (∀ es rest, 2 * (encL es).length + 2 ≤ f → noUnsupL es = true →
        discardL f (encL es ++ 101 :: rest) = .ok () rest) ∧
      (∀ ks fs rest, 2 * (encP ks fs).length + 2 ≤ f → noUnsupF fs = true →
        (∀ k ∈ ks, k ∈ namesTR fs) →
        discardDict f (encP ks fs ++ 101 :: rest) = .ok () rest) := by
  intro f
  induction f using Nat.strong_induction_on with
  | _ f ih =>
    refine ⟨?_, ?_, ?_⟩
    · intro w rest hf hnu
      have hl2 := noUnsup_encV_len2 hnu
      obtain ⟨f1, rfl⟩ : ∃ f1, f = f1 + 1 := ⟨f - 1, by omega⟩
      match w with
      | .bytes s =>
        rw [encV_bytes]
        exact discardD_strEnc s rest f1
      | .int n =>
        rw [encV_int]
        have h1 : (105 : UInt8) :: (itoa n ++ [101]) ++ rest =
            (105 :: itoa n) ++ 101 :: rest := by
          simp
        rw [h1]
        have hpay : (101 : UInt8) ∉ (105 :: itoa n) := by
          intro hm
          rcases List.mem_cons.mp hm with h | h
          · exact absurd h (by decide)
          · exact itoa_ne_e n 101 h rfl
        show (match readBytesTo 101 ((105 :: itoa n) ++ 101 :: rest) with
              | DRes.ok _ r1 => DRes.ok () r1
              | DRes.err e => DRes.err e
              | DRes.panic => DRes.panic
              | DRes.out => DRes.out) = DRes.ok () rest
        rw [readBytesTo_payload hpay]
      | .list z es =>
        rw [encV_list]
        have h1 : (108 : UInt8) :: (encL es ++ [101]) ++ rest =
            108 :: (encL es ++ 101 :: rest) := by
          simp
        rw [h1]
        show discardL f1 (encL es ++ 101 :: rest) = DRes.ok () rest
        rw [encV_list] at hf
        simp only [List.length_cons, List.length_append] at hf
        exact (ih f1 (by omega)).2.1 es rest (by omega) hnu
      | .struct fs =>
        rw [encV_struct]
        have h1 : (100 : UInt8) :: (encP (sortKeys (namesTR fs)) fs ++ [101]) ++ rest =
            100 :: (encP (sortKeys (namesTR fs)) fs ++ 101 :: rest) := by
          simp
        rw [h1]
        show discardDict f1 (encP (sortKeys (namesTR fs)) fs ++ 101 :: rest) =
            DRes.ok () rest
        rw [encV_struct] at hf
        simp only [List.length_cons, List.length_append] at hf
        have hperm := List.perm_insertionSort LeB (namesTR fs)
        exact (ih f1 (by omega)).2.2 (sortKeys (namesTR fs)) fs rest (by omega) hnu
          (fun k hk => hperm.mem_iff.mp hk)
      | .unsupported => simp [noUnsupB] at hnu
    · intro es rest hf hnu
      obtain ⟨f1, rfl⟩ : ∃ f1, f = f1 + 1 := ⟨f - 1, by omega⟩
      cases es with
      | nil =>
        rw [encL_nil]
        show (match next 101 ((101 : UInt8) :: rest) with
              | DRes.ok true r1 => DRes.ok () r1
              | DRes.ok false s1 =>
                  (match discardD f1 s1 with
                   | DRes.ok _ s2 => discardL f1 s2
                   | DRes.err e => DRes.err e
                   | DRes.panic => DRes.panic
                   | DRes.out => DRes.out)
              | DRes.err e => DRes.err e
              | DRes.panic => DRes.panic
              | DRes.out => DRes.out) = DRes.ok () rest
        rw [next_eq]
      | cons e es1 =>
        rw [noUnsupL, Bool.and_eq_true] at hnu
        have hl2e := noUnsup_encV_len2 hnu.1
        rw [encL_cons]
        obtain ⟨c, q, hcq, hc⟩ := noUnsup_encV_head hnu.1
        have h1 : (encV e ++ encL es1) ++ 101 :: rest =
            encV e ++ (encL es1 ++ 101 :: rest) := by
          simp
        rw [h1]
        have hnext : next 101 (encV e ++ (encL es1 ++ 101 :: rest)) =
            DRes.ok false (encV e ++ (encL es1 ++ 101 :: rest)) := by
          rw [hcq, List.cons_append]
          exact next_ne hc
        show (match next 101 (encV e ++ (encL es1 ++ 101 :: rest)) with
              | DRes.ok true r1 => DRes.ok () r1
              | DRes.ok false s1 =>
                  (match discardD f1 s1 with
                   | DRes.ok _ s2 => discardL f1 s2
                   | DRes.err e => DRes.err e
                   | DRes.panic => DRes.panic
                   | DRes.out => DRes.out)
              | DRes.err e => DRes.err e
              | DRes.panic => DRes.panic
              | DRes.out => DRes.out) = DRes.ok () rest
        rw [hnext]
        show (match discardD f1 (encV e ++ (encL es1 ++ 101 :: rest)) with
              | DRes.ok _ s2 => discardL f1 s2
              | DRes.err e => DRes.err e
              | DRes.panic => DRes.panic
              | DRes.out => DRes.out) = DRes.ok () rest
        rw [encL_cons] at hf
        simp only [List.length_append] at hf
        rw [(ih f1 (by omega)).1 e (encL es1 ++ 101 :: rest) (by omega) hnu.1]
        show discardL f1 (encL es1 ++ 101 :: rest) = DRes.ok () rest
        exact (ih f1 (by omega)).2.1 es1 rest (by omega) hnu.2
    · intro ks fs rest hf hnu hmem
      obtain ⟨f1, rfl⟩ : ∃ f1, f = f1 + 1 := ⟨f - 1, by omega⟩
      cases ks with
      | nil =>
        rw [encP_nil]
        show (match next 101 ((101 : UInt8) :: rest) with
              | DRes.ok true r1 => DRes.ok () r1
              | DRes.ok false s1 =>
                  (match discardD f1 s1 with
                   | DRes.ok _ s2 =>
                       (match discardD f1 s2 with
                        | DRes.ok _ s3 => discardDict f1 s3
                        | DRes.err e => DRes.err e
                        | DRes.panic => DRes.panic
                        | DRes.out => DRes.out)
                   | DRes.err e => DRes.err e
                   | DRes.panic => DRes.panic
                   | DRes.out => DRes.out)
              | DRes.err e => DRes.err e
              | DRes.panic => DRes.panic
              | DRes.out => DRes.out) = DRes.ok () rest
        rw [next_eq]
      | cons k ks1 =>
        obtain ⟨w, hlw⟩ := lookup_of_mem_namesTR fs k (hmem k (by simp))
        have hweq : (match lookupTagLast k fs with
            | some v => encV v
            | none => []) = encV w := by
          rw [hlw]
        rw [encP_cons, hweq]
        obtain ⟨c, q, hcq, hd⟩ := strEnc_head k
        have h1 : (strEnc k ++ encV w) ++ encP ks1 fs ++ 101 :: rest =
            strEnc k ++ (encV w ++ (encP ks1 fs ++ 101 :: rest)) := by
          simp
        rw [h1]
        have hnext : next 101 (strEnc k ++ (encV w ++ (encP ks1 fs ++ 101 :: rest))) =
            DRes.ok false (strEnc k ++ (encV w ++ (encP ks1 fs ++ 101 :: rest))) := by
          rw [hcq, List.cons_append]
          exact next_ne (digit_ne_e hd)
        show (match next 101 (strEnc k ++ (encV w ++ (encP ks1 fs ++ 101 :: rest))) with
              | DRes.ok true r1 => DRes.ok () r1
              | DRes.ok false s1 =>
                  (match discardD f1 s1 with
                   | DRes.ok _ s2 =>
                       (match discardD f1 s2 with
                        | DRes.ok _ s3 => discardDict f1 s3
                        | DRes.err e => DRes.err e
                        | DRes.panic => DRes.panic
                        | DRes.out => DRes.out)
                   | DRes.err e => DRes.err e
                   | DRes.panic => DRes.panic
                   | DRes.out => DRes.out)
              | DRes.err e => DRes.err e
              | DRes.panic => DRes.panic
              | DRes.out => DRes.out) = DRes.ok () rest
        rw [hnext]
        show (match discardD f1 (strEnc k ++ (encV w ++ (encP ks1 fs ++ 101 :: rest))) with
              | DRes.ok _ s2 =>
                  (match discardD f1 s2 with
                   | DRes.ok _ s3 => discardDict f1 s3
                   | DRes.err e => DRes.err e
                   | DRes.panic => DRes.panic
                   | DRes.out => DRes.out)
              | DRes.err e => DRes.err e
              | DRes.panic => DRes.panic
              | DRes.out => DRes.out) = DRes.ok () rest
        rw [encP_cons, hweq] at hf
        simp only [List.length_append] at hf
        have hsk := strEnc_len2 k
        obtain ⟨f2, rfl⟩ : ∃ f2, f1 = f2 + 1 := ⟨f1 - 1, by omega⟩
        rw [discardD_strEnc]
        show (match discardD (f2 + 1) (encV w ++ (encP ks1 fs ++ 101 :: rest)) with
              | DRes.ok _ s3 => discardDict (f2 + 1) s3
              | DRes.err e => DRes.err e
              | DRes.panic => DRes.panic
              | DRes.out => DRes.out) = DRes.ok () rest
        have hnw := noUnsup_lookupTagLast hlw hnu
        rw [(ih (f2 + 1) (by omega)).1 w (encP ks1 fs ++ 101 :: rest) (by omega) hnw]
        show discardDict (f2 + 1) (encP ks1 fs ++ 101 :: rest) = DRes.ok () rest
        exact (ih (f2 + 1) (by omega)).2.2 ks1 fs rest (by omega) hnu
          (fun k2 hk2 => hmem k2 (List.mem_cons_of_mem _ hk2))

/-- Values in wf1 have no unsupported component. -/
theorem wf1_noUnsup : ∀ v, wf1 v = true → noUnsupB v = true := by
  intro v
  induction v using Value.myInduction with
  | hbytes s => intro h; rfl
  | hint n => intro h; rfl
  | hlist z es hz hes =>
    intro h
    have hwl := (wf1_list h).2.2.2
    show noUnsupL es = true
    clear h hz
    induction es with
    | nil => rfl
    | cons e es1 ih =>
      rw [noUnsupL, Bool.and_eq_true]
      exact ⟨hes e (by simp) (wf1L_cons hwl).1,
        ih (fun g hg => hes g (List.mem_cons_of_mem _ hg)) (wf1L_cons hwl).2⟩
  | hstruct fs hfs =>
    intro h
    have hwf := (wf1_struct h).2
    show noUnsupF fs = true
    clear h
    induction fs with
    | nil => rfl
    | cons f rest ih =>
      obtain ⟨tw, htw, _, _, hwv, hwr⟩ := wf1F_cons hwf
      rw [noUnsupF]
      obtain ⟨n, tg, v⟩ := f
      rw [Bool.and_eq_true]
      exact ⟨hfs (n, tg, v) (by simp) hwv,
        ih (fun g hg => hfs g (List.mem_cons_of_mem _ hg)) hwr⟩
  | huns => intro h; simp [wf1] at h

/-- A run of dictionary entries on the wire, given as key/value pairs. -/
def wireD : List (List UInt8 × Value) → List UInt8
  | [] => []
  | (k, w) :: ps => strEnc k ++ encV w ++ wireD ps

/-- The struct-arm entry loop discards every entry whose key maps to no field
and leaves the fields untouched. -/
theorem decodeS_skipAll :
    ∀ (pairs : List (List UInt8 × Value)) (g : List SField)
      (rest : List UInt8) (f : Nat),
      2 * (wireD pairs).length + 2 ≤ f →
      (∀ p ∈ pairs, findField p.1 g = none ∧ noUnsupB p.2 = true) →
      decodeS f g (wireD pairs ++ 101 :: rest) = .ok g rest := by
  intro pairs
  induction pairs with
  | nil =>
    intro g rest f hf hp
    obtain ⟨f1, rfl⟩ : ∃ f1, f = f1 + 1 := ⟨f - 1, by omega⟩
    rw [wireD]
    show (match next 101 ((101 : UInt8) :: rest) with
          | DRes.ok true r1 => DRes.ok g r1
          | DRes.ok false s1 =>
              (match decodeString s1 with
               | DRes.ok k s2 =>
                   (match findField k g with
                    | some fv =>
                        (match decodeV f1 fv s2 with
                         | DRes.ok v1 s3 => decodeS f1 (setField k v1 g) s3
                         | DRes.err e => DRes.err e
                         | DRes.panic => DRes.panic
                         | DRes.out => DRes.out)
                    | none =>
                        (match discardD f1 s2 with
                         | DRes.ok _ s3 => decodeS f1 g s3
                         | DRes.err e => DRes.err e
                         | DRes.panic => DRes.panic
                         | DRes.out => DRes.out))
               | DRes.err e => DRes.err e
               | DRes.panic => DRes.panic
               | DRes.out => DRes.out)
          | DRes.err e => DRes.err e
          | DRes.panic => DRes.panic
          | DRes.out => DRes.out) = DRes.ok g rest
    rw [next_eq]
  | cons p ps ih =>
    intro g rest f hf hp
    obtain ⟨k, w⟩ := p
    obtain ⟨f1, rfl⟩ : ∃ f1, f = f1 + 1 := ⟨f - 1, by omega⟩
    have hkw := hp (k, w) (by simp)
    rw [wireD]
    obtain ⟨c, q, hcq, hd⟩ := strEnc_head k
    have h1 : (strEnc k ++ encV w ++ wireD ps) ++ 101 :: rest =
        strEnc k ++ (encV w ++ (wireD ps ++ 101 :: rest)) := by
      simp
    rw [h1]
    have hnext : next 101 (strEnc k ++ (encV w ++ (wireD ps ++ 101 :: rest))) =
        DRes.ok false (strEnc k ++ (encV w ++ (wireD ps ++ 101 :: rest))) := by
      rw [hcq, List.cons_append]
      exact next_ne (digit_ne_e hd)
    show (match next 101 (strEnc k ++ (encV w ++ (wireD ps ++ 101 :: rest))) with
          | DRes.ok true r1 => DRes.ok g r1
          | DRes.ok false s1 =>
              (match decodeString s1 with
               | DRes.ok k2 s2 =>
                   (match findField k2 g with
                    | some fv =>
                        (match decodeV f1 fv s2 with
                         | DRes.ok v1 s3 => decodeS f1 (setField k2 v1 g) s3
                         | DRes.err e => DRes.err e
                         | DRes.panic => DRes.panic
                         | DRes.out => DRes.out)
                    | none =>
                        (match discardD f1 s2 with
                         | DRes.ok _ s3 => decodeS f1 g s3
                         | DRes.err e => DRes.err e
                         | DRes.panic => DRes.panic
                         | DRes.out => DRes.out))
               | DRes.err e => DRes.err e
               | DRes.panic => DRes.panic
               | DRes.out => DRes.out)
          | DRes.err e => DRes.err e
          | DRes.panic => DRes.panic
          | DRes.out => DRes.out) = DRes.ok g rest
    rw [hnext]
    show (match decodeString (strEnc k ++ (encV w ++ (wireD ps ++ 101 :: rest))) with
          | DRes.ok k2 s2 =>
              (match findField k2 g with
               | some fv =>
                   (match decodeV f1 fv s2 with
                    | DRes.ok v1 s3 => decodeS f1 (setField k2 v1 g) s3
                    | DRes.err e => DRes.err e
                    | DRes.panic => DRes.panic
                    | DRes.out => DRes.out)
               | none =>
                   (match discardD f1 s2 with
                    | DRes.ok _ s3 => decodeS f1 g s3
                    | DRes.err e => DRes.err e
                    | DRes.panic => DRes.panic
                    | DRes.out => DRes.out))
          | DRes.err e => DRes.err e
          | DRes.panic => DRes.panic
          | DRes.out => DRes.out) = DRes.ok g rest
    rw [decodeString_strEnc]
    show (match findField k g with
          | some fv =>
              (match decodeV f1 fv (encV w ++ (wireD ps ++ 101 :: rest)) with
               | DRes.ok v1 s3 => decodeS f1 (setField k v1 g) s3
               | DRes.err e => DRes.err e
               | DRes.panic => DRes.panic
               | DRes.out => DRes.out)
          | none =>
              (match discardD f1 (encV w ++ (wireD ps ++ 101 :: rest)) with
               | DRes.ok _ s3 => decodeS f1 g s3
               | DRes.err e => DRes.err e
               | DRes.panic => DRes.panic
               | DRes.out => DRes.out)) = DRes.ok g rest
    rw [hkw.1]
    simp only [wireD, List.length_append] at hf
    have hsk := strEnc_len2 k
    rw [(discard_sound f1).1 w (wireD ps ++ 101 :: rest) (by omega) hkw.2]
    show decodeS f1 g (wireD ps ++ 101 :: rest) = DRes.ok g rest
    exact ih g rest f1 (by omega)
      (fun p2 hp2 => hp p2 (List.mem_cons_of_mem _ hp2))

/-- Decode of a dictionary all of whose keys are unmapped succeeds and leaves
the record's fields exactly as they were. -/
theorem Decode_skipAll (pairs : List (List UInt8 × Value)) (g : List SField)
    (rest : List UInt8)
    (hp : ∀ p ∈ pairs, findField p.1 g = none ∧ noUnsupB p.2 = true) :
    Decode (.struct g) (100 :: (wireD pairs ++ 101 :: rest)) =
      .ok (.struct g) rest := by
  rw [Decode]
  show (match next 100 ((100 : UInt8) :: (wireD pairs ++ 101 :: rest)) with
        | DRes.ok true s1 =>
            (match decodeS (2 * ((100 : UInt8) :: (wireD pairs ++ 101 :: rest)).length + 3)
                g s1 with
             | DRes.ok fs1 r1 => DRes.ok (Value.struct fs1) r1
             | DRes.err e => DRes.err e
             | DRes.panic => DRes.panic
             | DRes.out => DRes.out)
        | DRes.ok false _ => DRes.err DErr.notStruct
        | DRes.err e => DRes.err e
        | DRes.panic => DRes.panic
        | DRes.out => DRes.out) = DRes.ok (Value.struct g) rest
  rw [next_eq]
  show (match decodeS (2 * ((100 : UInt8) :: (wireD pairs ++ 101 :: rest)).length + 3)
          g (wireD pairs ++ 101 :: rest) with
        | DRes.ok fs1 r1 => DRes.ok (Value.struct fs1) r1
        | DRes.err e => DRes.err e
        | DRes.panic => DRes.panic
        | DRes.out => DRes.out) = DRes.ok (Value.struct g) rest
  rw [decodeS_skipAll pairs g rest _
    (by simp only [List.length_cons, List.length_append]; omega) hp]

/-- Storing through the field map never touches a position whose field has no
resolved name (in particular a field tagged with the sentinel). -/
theorem setField_get_preserve :
    ∀ (g : List SField) (k : List UInt8) (w : Value) (i : Nat) (fld : SField),
      g.get? i = some fld → resolvedName fld = none →
      (setField k w g).get? i = some fld := by
  intro g
  induction g with
  | nil =>
    intro k w i fld h hn
    simp at h
  | cons f rest ih =>
    intro k w i fld h hn
    rw [setField]
    rcases hr : findField k rest with _ | w2
    · cases i with
      | zero =>
        rw [List.get?_cons_zero] at h
        have hf : fld = f := (Option.some.inj h).symm
        subst hf
        rw [if_neg (by rw [hn]; simp)]
        rw [List.get?_cons_zero]
      | succ i1 =>
        rw [List.get?_cons_succ] at h
        by_cases hres : resolvedName f = some k
        · rw [if_pos hres, List.get?_cons_succ]
          exact h
        · rw [if_neg hres, List.get?_cons_succ]
          exact ih k w i1 fld h hn
    · cases i with
      | zero =>
        rw [List.get?_cons_zero] at h
        rw [List.get?_cons_zero]
        exact h
      | succ i1 =>
        rw [List.get?_cons_succ] at h
        rw [List.get?_cons_succ]
        exact ih k w i1 fld h hn

/-- Through any successful run of the struct entry loop, a field with no
resolved name keeps its position and its value. -/
theorem decodeS_preserves :
    ∀ (f : Nat) (g : List SField) (s : List UInt8) (g2 : List SField)
      (rest : List UInt8), decodeS f g s = .ok g2 rest →
      ∀ (i : Nat) (fld : SField), g.get? i = some fld →
        resolvedName fld = none → g2.get? i = some fld := by
  intro f
  induction f using Nat.strong_induction_on with
  | _ f ih =>
    intro g s g2 rest hd i fld hg hn
    match f with
    | 0 => cases hd
    | f1 + 1 =>
      rw [decodeS] at hd
      split at hd
      · cases hd
        exact hg
      · split at hd
        · split at hd
          · split at hd
            · exact ih f1 (by omega) _ _ g2 rest hd i fld
                (setField_get_preserve g _ _ i fld hg hn) hn
            · cases hd
            · cases hd
            · cases hd
          · split at hd
            · exact ih f1 (by omega) g _ g2 rest hd i fld hg hn
            · cases hd
            · cases hd
            · cases hd
        · cases hd
        · cases hd
        · cases hd
      · cases hd
      · cases hd
      · cases hd

/-! ## Pure description of the bytes src/unnamed/part_001 emits -/

theorem lookupNFLast_eCost {k : List UInt8} {fs : List SField} {v : Value}
    (h : lookupNFLast k fs = some v) : eCost v + 2 ≤ eCostF fs := by
  induction fs with
  | nil => simp [lookupNFLast] at h
  | cons f rest ih =>
    obtain ⟨n, t, w⟩ := f
    rw [lookupNFLast] at h
    rcases hr : lookupNFLast k rest with _ | w2
    · rw [hr] at h
      by_cases ht : resolveNF (n, t, w) = some k
      · rw [if_pos ht] at h
        cases h
        show eCost w + 2 ≤ eCostF ((n, t, w) :: rest)
        rw [eCostF]
        omega
      · rw [if_neg ht] at h
        cases h
    · rw [hr] at h
      cases h
      have := ih hr
      rw [eCostF]
      omega

theorem noUnsup_lookupNFLast {k : List UInt8} {fs : List SField} {v : Value}
    (h : lookupNFLast k fs = some v) (hf : noUnsupF fs = true) :
    noUnsupB v = true := by
  induction fs with
  | nil => simp [lookupNFLast] at h
  | cons f rest ih =>
    obtain ⟨n, t, w⟩ := f
    rw [noUnsupF, Bool.and_eq_true] at hf
    rw [lookupNFLast] at h
    rcases hr : lookupNFLast k rest with _ | w2
    · rw [hr] at h
      by_cases ht : resolveNF (n, t, w) = some k
      · rw [if_pos ht] at h
        cases h
        exact hf.1
      · rw [if_neg ht] at h
        cases h
    · rw [hr] at h
      cases h
      exact ih hr hf.2

theorem namesNF_length_le (fs : List SField) : (namesNF fs).length ≤ fs.length :=
  List.length_filterMap_le _ _

mutual
/-- The byte string part_001's encoder emits for a value. -/
def pureNFV : Nat → Value → List UInt8
  | 0, _ => []
  | fuel + 1, v =>
      match v with
      | .bytes s => strEnc s
      | .int n => 105 :: (itoa n ++ [101])
      | .list _ es => 108 :: (pureNFL fuel es ++ [101])
      | .struct fs => 100 :: (pureNFP fuel (sortKeys (namesNF fs)) fs ++ [101])
      | .unsupported => []

def pureNFL : Nat → List Value → List UInt8
  | 0, _ => []
  | _ + 1, [] => []
  | fuel + 1, v :: vs => pureNFV fuel v ++ pureNFL fuel vs

def pureNFP : Nat → List (List UInt8) → List SField → List UInt8
  | 0, _, _ => []
  | _ + 1, [], _ => []
  | fuel + 1, k :: ks, fs =>
      strEnc k ++
        (match lookupNFLast k fs with
         | some v => pureNFV fuel v
         | none => []) ++
        pureNFP fuel ks fs
end

theorem pureNF_irrel :
    ∀ f,
      (∀ v g, eCost v ≤ f → eCost v ≤ g → pureNFV f v = pureNFV g v) ∧
      (∀ es g, eCostL es ≤ f → eCostL es ≤ g → pureNFL f es = pureNFL g es) ∧
      (∀ ks fs g, eCostF fs + ks.length + 1 ≤ f → eCostF fs + ks.length + 1 ≤ g →
        pureNFP f ks fs = pureNFP g ks fs) := by
  intro f
  induction f using Nat.strong_induction_on with
  | _ f ih =>
    refine ⟨?_, ?_, ?_⟩
    · intro v g hf hg
      have h2 := eCost_pos v
      obtain ⟨f1, rfl⟩ : ∃ f1, f = f1 + 1 := ⟨f - 1, by omega⟩
      obtain ⟨g1, rfl⟩ : ∃ g1, g = g1 + 1 := ⟨g - 1, by omega⟩
      match v with
      | .bytes s => rfl
      | .int n => rfl
      | .unsupported => rfl
      | .list z es =>
        show 108 :: (pureNFL f1 es ++ [101]) = 108 :: (pureNFL g1 es ++ [101])
        rw [eCost] at hf hg
        rw [(ih f1 (by omega)).2.1 es g1 (by omega) (by omega)]
      | .struct fs =>
        show 100 :: (pureNFP f1 (sortKeys (namesNF fs)) fs ++ [101]) =
             100 :: (pureNFP g1 (sortKeys (namesNF fs)) fs ++ [101])
        rw [eCost] at hf hg
        have hlen : (sortKeys (namesNF fs)).length ≤ fs.length := by
          rw [sortKeys_length]
          exact namesNF_length_le fs
        rw [(ih f1 (by omega)).2.2 (sortKeys (namesNF fs)) fs g1 (by omega) (by omega)]
    · intro es g hf hg
      have h2 := eCostL_pos es
      obtain ⟨f1, rfl⟩ : ∃ f1, f = f1 + 1 := ⟨f - 1, by omega⟩
      obtain ⟨g1, rfl⟩ : ∃ g1, g = g1 + 1 := ⟨g - 1, by omega⟩
      match es with
      | [] => rfl
      | v :: vs =>
        show pureNFV f1 v ++ pureNFL f1 vs = pureNFV g1 v ++ pureNFL g1 vs
        rw [eCostL] at hf hg
        have h3 := eCost_pos v
        have h4 := eCostL_pos vs
        rw [(ih f1 (by omega)).1 v g1 (by omega) (by omega),
            (ih f1 (by omega)).2.1 vs g1 (by omega) (by omega)]
    · intro ks fs g hf hg
      have h2 := eCostF_pos fs
      obtain ⟨f1, rfl⟩ : ∃ f1, f = f1 + 1 := ⟨f - 1, by omega⟩
      obtain ⟨g1, rfl⟩ : ∃ g1, g = g1 + 1 := ⟨g - 1, by omega⟩
      match ks with
      | [] => rfl
      | k :: ks1 =>
        show strEnc k ++ _ ++ pureNFP f1 ks1 fs = strEnc k ++ _ ++ pureNFP g1 ks1 fs
        simp only [List.length_cons] at hf hg
        congr 1
        · congr 1
          rcases hl : lookupNFLast k fs with _ | v
          · rfl
          · have h3 := lookupNFLast_eCost hl
            exact (ih f1 (by omega)).1 v g1 (by omega) (by omega)
        · exact (ih f1 (by omega)).2.2 ks1 fs g1 (by omega) (by omega)

/-- Fuel-free pure encodings for part_001. -/
def encNFV (v : Value) : List UInt8 := pureNFV (eCost v) v

def encNFL (es : List Value) : List UInt8 := pureNFL (eCostL es) es

def encNFP (ks : List (List UInt8)) (fs : List SField) : List UInt8 :=
  pureNFP (eCostF fs + ks.length + 1) ks fs

theorem pureNFV_encNFV {f : Nat} {v : Value} (h : eCost v ≤ f) :
    pureNFV f v = encNFV v :=
  (pureNF_irrel f).1 v (eCost v) h le_rfl

theorem pureNFL_encNFL {f : Nat} {es : List Value} (h : eCostL es ≤ f) :
    pureNFL f es = encNFL es :=
  (pureNF_irrel f).2.1 es (eCostL es) h le_rfl

theorem pureNFP_encNFP {f : Nat} {ks : List (List UInt8)} {fs : List SField}
    (h : eCostF fs + ks.length + 1 ≤ f) : pureNFP f ks fs = encNFP ks fs :=
  (pureNF_irrel f).2.2 ks fs (eCostF fs + ks.length + 1) h le_rfl

theorem encNFV_bytes (s : List UInt8) : encNFV (.bytes s) = strEnc s := rfl

theorem encNFV_int (n : Int) : encNFV (.int n) = 105 :: (itoa n ++ [101]) := rfl

theorem encNFV_list (z : Value) (es : List Value) :
    encNFV (.list z es) = 108 :: (encNFL es ++ [101]) := by
  show 108 :: (pureNFL (eCostL es + 2) es ++ [101]) = _
  rw [pureNFL_encNFL (by omega)]

theorem encNFV_struct (fs : List SField) :
    encNFV (.struct fs) = 100 :: (encNFP (sortKeys (namesNF fs)) fs ++ [101]) := by
  show 100 :: (pureNFP (eCostF fs + fs.length + 2) (sortKeys (namesNF fs)) fs ++ [101]) = _
  have hlen : (sortKeys (namesNF fs)).length ≤ fs.length := by
    rw [sortKeys_length]
    exact namesNF_length_le fs
  rw [pureNFP_encNFP (by omega)]

theorem encNFL_nil : encNFL [] = [] := rfl

theorem encNFL_cons (v : Value) (vs : List Value) :
    encNFL (v :: vs) = encNFV v ++ encNFL vs := by
  show pureNFV (eCost v + eCostL vs) v ++ pureNFL (eCost v + eCostL vs) vs = _
  have h3 := eCost_pos v
  have h4 := eCostL_pos vs
  rw [pureNFV_encNFV (by omega), pureNFL_encNFL (by omega)]

theorem encNFP_nil (fs : List SField) : encNFP [] fs = [] := rfl

theorem encNFP_cons (k : List UInt8) (ks : List (List UInt8)) (fs : List SField) :
    encNFP (k :: ks) fs =
      strEnc k ++
        (match lookupNFLast k fs with
         | some v => encNFV v
         | none => []) ++
        encNFP ks fs := by
  show strEnc k ++ _ ++ pureNFP (eCostF fs + ks.length + 1) ks fs = _
  congr 1
  · congr 1
    rcases hl : lookupNFLast k fs with _ | v
    · rfl
    · have h3 := lookupNFLast_eCost hl
      exact pureNFV_encNFV (by omega)

theorem encodeNF_ok :
    ∀ f,
      (∀ v st, noUnsupB v = true → eCost v ≤ f →
        EncodeNF.encode f v st = (none, flush (write (encNFV v) st))) ∧
      (∀ es st, noUnsupL es = true → eCostL es ≤ f →
        EncodeNF.encodeElems f es st =
          (none, match es with
                 | [] => st
                 | _ :: _ => flush (write (encNFL es) st))) ∧
      (∀ ks fs st, noUnsupF fs = true → eCostF fs + ks.length + 1 ≤ f →
        EncodeNF.encodePairs f ks fs st =
          (none, match ks with
                 | [] => st
                 | _ :: _ => flush (write (encNFP ks fs) st))) := by
  intro f
  induction f using Nat.strong_induction_on with
  | _ f ih =>
    refine ⟨?_, ?_, ?_⟩
    · intro v st hn hc
      have h2 := eCost_pos v
      obtain ⟨f1, rfl⟩ : ∃ f1, f = f1 + 1 := ⟨f - 1, by omega⟩
      have h3 : 1 ≤ f1 := by omega
      obtain ⟨f2, rfl⟩ : ∃ f2, f1 = f2 + 1 := ⟨f1 - 1, by omega⟩
      match v with
      | .bytes s => rfl
      | .int n => rfl
      | .unsupported => simp [noUnsupB] at hn
      | .list z es =>
        rw [eCost] at hc
        rw [noUnsupB] at hn
        show (match EncodeNF.encodeB (f2 + 1) (.list z es) st with
              | (none, st1) => (none, flush st1)
              | r => r) = _
        have hb : EncodeNF.encodeB (f2 + 1) (.list z es) st =
            (match EncodeNF.encodeElems f2 es (write [108] st) with
             | (none, st2) => (none, write [101] st2)
             | r => r) := rfl
        rw [hb]
        have hel := (ih f2 (by omega)).2.1 es (write [108] st) hn (by omega)
        cases es with
        | nil =>
          rw [hel]
          rw [encNFV_list, encNFL_nil]
          simp [flush, write]
        | cons e es1 =>
          rw [hel]
          rw [encNFV_list, encNFL_cons]
          simp [flush, write, List.append_assoc, encNFL_cons]
      | .struct fs =>
        rw [eCost] at hc
        rw [noUnsupB] at hn
        have hlen : (sortKeys (namesNF fs)).length ≤ fs.length := by
          rw [sortKeys_length]
          exact namesNF_length_le fs
        show (match EncodeNF.encodeB (f2 + 1) (.struct fs) st with
              | (none, st1) => (none, flush st1)
              | r => r) = _
        have hb : EncodeNF.encodeB (f2 + 1) (.struct fs) st =
            (match EncodeNF.encodePairs f2 (sortKeys (namesNF fs)) fs
                (write [100] st) with
             | (none, st2) => (none, write [101] st2)
             | r => r) := rfl
        rw [hb]
        have hel := (ih f2 (by omega)).2.2 (sortKeys (namesNF fs)) fs
          (write [100] st) hn (by omega)
        rw [encNFV_struct, hel]
        cases hks : sortKeys (namesNF fs) with
        | nil =>
          rw [encNFP_nil]
          simp [flush, write]
        | cons k ks1 =>
          simp [flush, write, List.append_assoc]
    · intro es st hn hc
      have h2 := eCostL_pos es
      obtain ⟨f1, rfl⟩ : ∃ f1, f = f1 + 1 := ⟨f - 1, by omega⟩
      match es with
      | [] => rfl
      | v :: vs =>
        rw [eCostL] at hc
        rw [noUnsupL, Bool.and_eq_true] at hn
        have h3 := eCost_pos v
        have h4 := eCostL_pos vs
        have hv := (ih f1 (by omega)).1 v st hn.1 (by omega)
        show (match EncodeNF.encode f1 v st with
              | (none, st1) => EncodeNF.encodeElems f1 vs st1
              | r => r) = _
        rw [hv]
        have hvs := (ih f1 (by omega)).2.1 vs (flush (write (encNFV v) st)) hn.2 (by omega)
        show EncodeNF.encodeElems f1 vs (flush (write (encNFV v) st)) = _
        rw [hvs]
        cases vs with
        | nil =>
          rw [encNFL_cons, encNFL_nil]
          simp [flush, write]
        | cons w ws =>
          simp [flush, write, List.append_assoc, encNFL_cons]
    · intro ks fs st hn hc
      have h2 := eCostF_pos fs
      obtain ⟨f1, rfl⟩ : ∃ f1, f = f1 + 1 := ⟨f - 1, by omega⟩
      match ks with
      | [] => rfl
      | k :: ks1 =>
        simp only [List.length_cons] at hc
        show (match lookupNFLast k fs with
              | some v =>
                  match EncodeNF.encode f1 v (flush (write (strEnc k) st)) with
                  | (none, st2) => EncodeNF.encodePairs f1 ks1 fs st2
                  | r => r
              | none => EncodeNF.encodePairs f1 ks1 fs (flush (write (strEnc k) st))) = _
        rcases hl : lookupNFLast k fs with _ | v
        · have hrest := (ih f1 (by omega)).2.2 ks1 fs (flush (write (strEnc k) st)) hn
            (by omega)
          show EncodeNF.encodePairs f1 ks1 fs (flush (write (strEnc k) st)) = _
          rw [hrest]
          rw [encNFP_cons, hl]
          cases ks1 with
          | nil =>
            rw [encNFP_nil]
            simp [flush, write]
          | cons k2 ks2 =>
            simp [flush, write, List.append_assoc]
        · have hnv := noUnsup_lookupNFLast hl hn
          have hec := lookupNFLast_eCost hl
          have hv := (ih f1 (by omega)).1 v (flush (write (strEnc k) st)) hnv (by omega)
          show (match EncodeNF.encode f1 v (flush (write (strEnc k) st)) with
                | (none, st2) => EncodeNF.encodePairs f1 ks1 fs st2
                | r => r) = _
          rw [hv]
          have hrest := (ih f1 (by omega)).2.2 ks1 fs
            (flush (write (encNFV v) (flush (write (strEnc k) st)))) hn (by omega)
          show EncodeNF.encodePairs f1 ks1 fs
            (flush (write (encNFV v) (flush (write (strEnc k) st)))) = _
          rw [hrest]
          rw [encNFP_cons, hl]
          cases ks1 with
          | nil =>
            rw [encNFP_nil]
            simp [flush, write, List.append_assoc]
          | cons k2 ks2 =>
            simp [flush, write, List.append_assoc]

/-- Marshal of src/unnamed/part_001 on a value with no unsupported component:
the returned bytes are exactly its pure encoding. -/
theorem MarshalNF_eq {v : Value} (h : noUnsupB v = true) :
    EncodeNF.Marshal v = some (encNFV v) := by
  rw [EncodeNF.Marshal]
  rw [(encodeNF_ok (eCost v)).1 v ⟨[], []⟩ h le_rfl]
  simp [flush, write]

/-! ## A field part_001 excludes from its map contributes nothing -/

theorem lookupNFLast_cons_none {f : SField} (hres : resolveNF f = none)
    (k : List UInt8) (fs : List SField) :
    lookupNFLast k (f :: fs) = lookupNFLast k fs := by
  rw [lookupNFLast]
  rcases hr : lookupNFLast k fs with _ | w
  · rw [if_neg (by rw [hres]; simp)]
  · rfl

theorem lookupNFLast_erase {f : SField} (hres : resolveNF f = none) :
    ∀ (l1 l2 : List SField) (k : List UInt8),
      lookupNFLast k (l1 ++ f :: l2) = lookupNFLast k (l1 ++ l2) := by
  intro l1
  induction l1 with
  | nil =>
    intro l2 k
    exact lookupNFLast_cons_none hres k l2
  | cons g l1t ih =>
    intro l2 k
    rw [List.cons_append, List.cons_append, lookupNFLast, lookupNFLast, ih l2 k]

theorem namesNF_erase {f : SField} (hres : resolveNF f = none)
    (l1 l2 : List SField) :
    namesNF (l1 ++ f :: l2) = namesNF (l1 ++ l2) := by
  rw [namesNF, namesNF, List.filterMap_append, List.filterMap_append,
    List.filterMap_cons_none hres]

theorem pureNFP_congr :
    ∀ (fuel : Nat) (ks : List (List UInt8)) (fs fs2 : List SField),
      (∀ k, lookupNFLast k fs = lookupNFLast k fs2) →
      pureNFP fuel ks fs = pureNFP fuel ks fs2 := by
  intro fuel
  induction fuel with
  | zero => intro ks fs fs2 h; rfl
  | succ f1 ih =>
    intro ks fs fs2 h
    match ks with
    | [] => rfl
    | k :: ks1 =>
      show strEnc k ++ _ ++ pureNFP f1 ks1 fs = strEnc k ++ _ ++ pureNFP f1 ks1 fs2
      rw [h k, ih ks1 fs fs2 h]

theorem eCostF_erase_le (f : SField) :
    ∀ (l1 l2 : List SField), eCostF (l1 ++ l2) ≤ eCostF (l1 ++ f :: l2) := by
  intro l1
  induction l1 with
  | nil =>
    intro l2
    obtain ⟨n, t, v⟩ := f
    rw [List.nil_append, List.nil_append, eCostF]
    have := eCost_pos v
    omega
  | cons g l1t ih =>
    intro l2
    obtain ⟨n1, t1, v1⟩ := g
    rw [List.cons_append, List.cons_append, eCostF, eCostF]
    have := ih l2
    omega

theorem noUnsupF_erase {f : SField} :
    ∀ (l1 l2 : List SField), noUnsupF (l1 ++ f :: l2) = true →
      noUnsupF (l1 ++ l2) = true := by
  intro l1
  induction l1 with
  | nil =>
    intro l2 h
    obtain ⟨n, t, v⟩ := f
    rw [List.nil_append, noUnsupF, Bool.and_eq_true] at h
    rw [List.nil_append]
    exact h.2
  | cons g l1t ih =>
    intro l2 h
    obtain ⟨n1, t1, v1⟩ := g
    rw [List.cons_append, noUnsupF, Bool.and_eq_true] at h
    rw [List.cons_append, noUnsupF, Bool.and_eq_true]
    exact ⟨h.1, ih l2 h.2⟩

theorem encNFP_erase {f : SField} (hres : resolveNF f = none)
    (ks : List (List UInt8)) (l1 l2 : List SField) :
    encNFP ks (l1 ++ f :: l2) = encNFP ks (l1 ++ l2) := by
  rw [encNFP, pureNFP_congr _ ks _ _ (fun k => lookupNFLast_erase hres l1 l2 k)]
  refine pureNFP_encNFP ?_
  have := eCostF_erase_le f l1 l2
  omega

/-- Removing a field that part_001's encoder excludes from its field map does
not change the encoder's output. -/
theorem MarshalNF_erase {f : SField} (l1 l2 : List SField)
    (hres : resolveNF f = none)
    (hnu : noUnsupF (l1 ++ f :: l2) = true) :
    EncodeNF.Marshal (.struct (l1 ++ f :: l2)) =
      EncodeNF.Marshal (.struct (l1 ++ l2)) := by
  rw [MarshalNF_eq (show noUnsupB (.struct (l1 ++ f :: l2)) = true from hnu),
      MarshalNF_eq (show noUnsupB (.struct (l1 ++ l2)) = true from
        noUnsupF_erase l1 l2 hnu)]
  rw [encNFV_struct, encNFV_struct, namesNF_erase hres l1 l2,
    encNFP_erase hres (sortKeys (namesNF (l1 ++ l2))) l1 l2]

/-! ## Declaration-order independence of src/encode.go's output -/

theorem lookupTagLast_mem :
    ∀ (fs : List SField) (k : List UInt8) (v : Value),
      lookupTagLast k fs = some v → ∃ n, (n, some k, v) ∈ fs := by
  intro fs
  induction fs with
  | nil =>
    intro k v h
    simp [lookupTagLast] at h
  | cons f rest ih =>
    intro k v h
    obtain ⟨n, t, w⟩ := f
    rw [lookupTagLast] at h
    rcases hr : lookupTagLast k rest with _ | w2
    · rw [hr] at h
      by_cases ht : t = some k
      · rw [if_pos ht] at h
        cases h
        subst ht
        exact ⟨n, by simp⟩
      · rw [if_neg ht] at h
        cases h
    · rw [hr] at h
      cases h
      obtain ⟨n2, hm⟩ := ih k v hr
      exact ⟨n2, List.mem_cons_of_mem _ hm⟩

theorem namesTR_nodup_tail {f : SField} {rest : List SField}
    (h : (namesTR (f :: rest)).Nodup) : (namesTR rest).Nodup := by
  obtain ⟨n, t, w⟩ := f
  cases t with
  | none => exact h
  | some tg =>
    rw [show namesTR ((n, some tg, w) :: rest) = tg :: namesTR rest from rfl] at h
    exact h.of_cons

theorem mem_lookupTagLast :
    ∀ (fs : List SField) (k : List UInt8) (v : Value) (n : List UInt8),
      (n, some k, v) ∈ fs → (namesTR fs).Nodup → lookupTagLast k fs = some v := by
  intro fs
  induction fs with
  | nil =>
    intro k v n h hnd
    simp at h
  | cons f rest ih =>
    intro k v n h hnd
    rcases List.mem_cons.mp h with he | hm
    · subst he
      rw [lookupTagLast]
      have hknot : k ∉ namesTR rest := by
        rw [show namesTR ((n, some k, v) :: rest) = k :: namesTR rest from rfl] at hnd
        exact (List.nodup_cons.mp hnd).1
      have hnone : lookupTagLast k rest = none := by
        rcases hr : lookupTagLast k rest with _ | w2
        · rfl
        · exact absurd (mem_namesTR_of_lookup rest k w2 hr) hknot
      rw [hnone, if_pos rfl]
    · obtain ⟨n1, t1, w1⟩ := f
      rw [lookupTagLast, ih k v n hm (namesTR_nodup_tail hnd)]

theorem lookupTagLast_perm {fs fs2 : List SField} (hp : fs.Perm fs2)
    (hnd : (namesTR fs).Nodup) (k : List UInt8) :
    lookupTagLast k fs = lookupTagLast k fs2 := by
  have hnp : (namesTR fs).Perm (namesTR fs2) := hp.filterMap _
  have hnd2 : (namesTR fs2).Nodup := hnp.nodup_iff.mp hnd
  rcases hl : lookupTagLast k fs with _ | v
  · rcases hl2 : lookupTagLast k fs2 with _ | v2
    · rfl
    · obtain ⟨n2, hm2⟩ := lookupTagLast_mem fs2 k v2 hl2
      rw [mem_lookupTagLast fs k v2 n2 (hp.symm.subset hm2) hnd] at hl
      cases hl
  · obtain ⟨n1, hm1⟩ := lookupTagLast_mem fs k v hl
    rw [mem_lookupTagLast fs2 k v n1 (hp.subset hm1) hnd2]

theorem eCostF_perm {fs fs2 : List SField} (hp : fs.Perm fs2) :
    eCostF fs = eCostF fs2 := by
  induction hp with
  | nil => rfl
  | cons x _ ih =>
    obtain ⟨n, t, v⟩ := x
    show eCost v + eCostF _ + 2 = eCost v + eCostF _ + 2
    omega
  | swap x y l =>
    obtain ⟨n1, t1, v1⟩ := x
    obtain ⟨n2, t2, v2⟩ := y
    show eCost v2 + (eCost v1 + eCostF l + 2) + 2 =
         eCost v1 + (eCost v2 + eCostF l + 2) + 2
    omega
  | trans _ _ ih1 ih2 => exact ih1.trans ih2

theorem noUnsupF_perm {fs fs2 : List SField} (hp : fs.Perm fs2) :
    noUnsupF fs = noUnsupF fs2 := by
  induction hp with
  | nil => rfl
  | cons x _ ih =>
    obtain ⟨n, t, v⟩ := x
    show (noUnsupB v && noUnsupF _) = (noUnsupB v && noUnsupF _)
    rw [ih]
  | swap x y l =>
    obtain ⟨n1, t1, v1⟩ := x
    obtain ⟨n2, t2, v2⟩ := y
    show (noUnsupB v2 && (noUnsupB v1 && noUnsupF l)) =
         (noUnsupB v1 && (noUnsupB v2 && noUnsupF l))
    rw [← Bool.and_assoc, Bool.and_comm (noUnsupB v2) (noUnsupB v1), Bool.and_assoc]
  | trans _ _ ih1 ih2 => exact ih1.trans ih2

theorem pureP_congr :
    ∀ (fuel : Nat) (ks : List (List UInt8)) (fs fs2 : List SField),
      (∀ k, lookupTagLast k fs = lookupTagLast k fs2) →
      pureP fuel ks fs = pureP fuel ks fs2 := by
  intro fuel
  induction fuel with
  | zero => intro ks fs fs2 h; rfl
  | succ f1 ih =>
    intro ks fs fs2 h
    match ks with
    | [] => rfl
    | k :: ks1 =>
      show strEnc k ++ _ ++ pureP f1 ks1 fs = strEnc k ++ _ ++ pureP f1 ks1 fs2
      rw [h k, ih ks1 fs fs2 h]

/-- src/encode.go's output on a record does not depend on the declaration
order of the fields (for records whose tags are mutually distinct). -/
theorem MarshalGo_perm {fs fs2 : List SField} (hp : fs.Perm fs2)
    (hnd : (namesTR fs).Nodup) (hnu : noUnsupF fs = true) :
    EncodeGo.Marshal (.struct fs) = EncodeGo.Marshal (.struct fs2) := by
  have hnu2 : noUnsupF fs2 = true := (noUnsupF_perm hp).symm.trans hnu
  rw [MarshalGo_eq (show noUnsupB (.struct fs) = true from hnu),
      MarshalGo_eq (show noUnsupB (.struct fs2) = true from hnu2)]
  have hnp : (namesTR fs).Perm (namesTR fs2) := hp.filterMap _
  have hkeys : sortKeys (namesTR fs) = sortKeys (namesTR fs2) := by
    exact List.eq_of_perm_of_sorted
      ((List.perm_insertionSort LeB _).trans
        (hnp.trans (List.perm_insertionSort LeB _).symm))
      (List.sorted_insertionSort LeB _)
      (List.sorted_insertionSort LeB _)
  rw [encV_struct, encV_struct, hkeys]
  have hep : encP (sortKeys (namesTR fs2)) fs = encP (sortKeys (namesTR fs2)) fs2 := by
    rw [encP, pureP_congr _ _ fs fs2 (fun k => lookupTagLast_perm hp hnd k),
      eCostF_perm hp]
    exact pureP_encP le_rfl
  rw [hep]

/-! ## The claims -/

/-- Claim C1 (corrected): the round trip holds once every field is tagged with
mutually distinct comma-free non-sentinel tags (wf1); marshalling such a value
with src/encode.go and unmarshalling into a fresh zero target of the same type
returns exactly the value.  The original claim over all supported shapes fails
on a record with an untagged field, which src/encode.go silently drops. -/
theorem claim_C1 (v : Value) (hw : wf1 v = true) :
    EncodeGo.Marshal v = some (encV v) ∧
    Unmarshal (encV v) (zeroOf v) = .ok v [] := by
  constructor
  · exact MarshalGo_eq (wf1_noUnsup v hw)
  · show Decode (zeroOf v) (encV v) = .ok v []
    rw [show encV v = encV v ++ [] from (List.append_nil _).symm]
    exact Decode_encV hw (MatchTgt_zeroOf v)

theorem claim_C1_witness :
    EncodeGo.Marshal (.struct [(ascii "Fizz", some (ascii "fizz"), Value.int 3),
        (ascii "Buzz", some (ascii "buzz"), Value.int 5)]) =
      some (encV (.struct [(ascii "Fizz", some (ascii "fizz"), Value.int 3),
        (ascii "Buzz", some (ascii "buzz"), Value.int 5)])) ∧
    Unmarshal (encV (.struct [(ascii "Fizz", some (ascii "fizz"), Value.int 3),
        (ascii "Buzz", some (ascii "buzz"), Value.int 5)]))
      (zeroOf (.struct [(ascii "Fizz", some (ascii "fizz"), Value.int 3),
        (ascii "Buzz", some (ascii "buzz"), Value.int 5)])) =
      .ok (.struct [(ascii "Fizz", some (ascii "fizz"), Value.int 3),
        (ascii "Buzz", some (ascii "buzz"), Value.int 5)]) [] :=
  claim_C1 (.struct [(ascii "Fizz", some (ascii "fizz"), Value.int 3),
    (ascii "Buzz", some (ascii "buzz"), Value.int 5)]) rfl

theorem claim_C1_cex :
    EncodeGo.Marshal (.struct [(ascii "Bizz", none, Value.int 1)]) =
      some (ascii "de") ∧
    Unmarshal (ascii "de") (zeroOf (.struct [(ascii "Bizz", none, Value.int 1)])) =
      .ok (.struct [(ascii "Bizz", none, Value.int 0)]) [] ∧
    Value.struct [(ascii "Bizz", none, Value.int 0)] ≠
      Value.struct [(ascii "Bizz", none, Value.int 1)] :=
  ⟨rfl, rfl, by simp⟩

/-- Claim C2 (confirmed): src/encode.go emits record dictionaries with keys in
ascending byte-wise lexicographic order (the emitted key list is the sorted
permutation of the tag list), independently of field declaration order (any
permutation of the fields of a distinctly-tagged record marshals to the same
bytes), and the fizz/buzz record encodes to d4:buzzi5e4:fizzi3ee in both
declaration orders. -/
theorem claim_C2 (fs fs2 : List SField) (hnu : noUnsupF fs = true)
    (hnd : (namesTR fs).Nodup) (hp : fs.Perm fs2) :
    List.Sorted LeB (sortKeys (namesTR fs)) ∧
    (sortKeys (namesTR fs)).Perm (namesTR fs) ∧
    EncodeGo.Marshal (.struct fs) =
      some (100 :: (encP (sortKeys (namesTR fs)) fs ++ [101])) ∧
    EncodeGo.Marshal (.struct fs) = EncodeGo.Marshal (.struct fs2) ∧
    EncodeGo.Marshal (.struct [(ascii "Fizz", some (ascii "fizz"), Value.int 3),
        (ascii "Buzz", some (ascii "buzz"), Value.int 5)]) =
      some (ascii "d4:buzzi5e4:fizzi3ee") ∧
    EncodeGo.Marshal (.struct [(ascii "Buzz", some (ascii "buzz"), Value.int 5),
        (ascii "Fizz", some (ascii "fizz"), Value.int 3)]) =
      some (ascii "d4:buzzi5e4:fizzi3ee") := by
  refine ⟨List.sorted_insertionSort LeB _, List.perm_insertionSort LeB _, ?_,
    MarshalGo_perm hp hnd hnu, rfl, rfl⟩
  rw [MarshalGo_eq (show noUnsupB (.struct fs) = true from hnu), encV_struct]

theorem claim_C2_witness :
    List.Sorted LeB (sortKeys (namesTR
      [(ascii "Fizz", some (ascii "fizz"), Value.int 3),
       (ascii "Buzz", some (ascii "buzz"), Value.int 5)])) ∧
    (sortKeys (namesTR [(ascii "Fizz", some (ascii "fizz"), Value.int 3),
       (ascii "Buzz", some (ascii "buzz"), Value.int 5)])).Perm
      (namesTR [(ascii "Fizz", some (ascii "fizz"), Value.int 3),
       (ascii "Buzz", some (ascii "buzz"), Value.int 5)]) ∧
    EncodeGo.Marshal (.struct [(ascii "Fizz", some (ascii "fizz"), Value.int 3),
       (ascii "Buzz", some (ascii "buzz"), Value.int 5)]) =
      some (100 :: (encP (sortKeys (namesTR
        [(ascii "Fizz", some (ascii "fizz"), Value.int 3),
         (ascii "Buzz", some (ascii "buzz"), Value.int 5)]))
        [(ascii "Fizz", some (ascii "fizz"), Value.int 3),
         (ascii "Buzz", some (ascii "buzz"), Value.int 5)] ++ [101])) ∧
    EncodeGo.Marshal (.struct [(ascii "Fizz", some (ascii "fizz"), Value.int 3),
       (ascii "Buzz", some (ascii "buzz"), Value.int 5)]) =
      EncodeGo.Marshal (.struct [(ascii "Buzz", some (ascii "buzz"), Value.int 5),
       (ascii "Fizz", some (ascii "fizz"), Value.int 3)]) ∧
    EncodeGo.Marshal (.struct [(ascii "Fizz", some (ascii "fizz"), Value.int 3),
        (ascii "Buzz", some (ascii "buzz"), Value.int 5)]) =
      some (ascii "d4:buzzi5e4:fizzi3ee") ∧
    EncodeGo.Marshal (.struct [(ascii "Buzz", some (ascii "buzz"), Value.int 5),
        (ascii "Fizz", some (ascii "fizz"), Value.int 3)]) =
      some (ascii "d4:buzzi5e4:fizzi3ee") :=
  claim_C2 [(ascii "Fizz", some (ascii "fizz"), Value.int 3),
    (ascii "Buzz", some (ascii "buzz"), Value.int 5)]
    [(ascii "Buzz", some (ascii "buzz"), Value.int 5),
     (ascii "Fizz", some (ascii "fizz"), Value.int 3)]
    rfl (by decide)
    (List.Perm.swap (ascii "Buzz", some (ascii "buzz"), Value.int 5)
      (ascii "Fizz", some (ascii "fizz"), Value.int 3) [])

/-- Claim C3 (corrected): src/encode.go does NOT serialize an exported field
that carries no tag (the record encodes as the empty dictionary), while the
encoder of src/unnamed/part_001 serializes it under the declared field name
used verbatim as the key.  The spec follows part_001; src/encode.go refutes
the claim. -/
theorem claim_C3 (n : List UInt8) (v : Value) (hnu : noUnsupB v = true) :
    EncodeGo.Marshal (.struct [(n, none, v)]) = some (ascii "de") ∧
    EncodeNF.Marshal (.struct [(n, none, v)]) =
      some (100 :: (strEnc n ++ (encNFV v ++ [101]))) := by
  have hnf : noUnsupB (.struct [(n, none, v)]) = true := by
    show (noUnsupB v && true) = true
    rw [hnu]
    rfl
  constructor
  · rw [MarshalGo_eq hnf, encV_struct]
    rw [show namesTR [(n, none, v)] = [] from rfl]
    rw [show sortKeys ([] : List (List UInt8)) = [] from rfl, encP_nil]
    rfl
  · rw [MarshalNF_eq hnf, encNFV_struct]
    rw [show sortKeys (namesNF [(n, none, v)]) = [n] from rfl]
    rw [encNFP_cons]
    have h2 : lookupNFLast n [(n, none, v)] = some v := by
      show (if resolveNF (n, none, v) = some n then some v else none) = some v
      rw [if_pos (show resolveNF (n, none, v) = some n from rfl)]
    rw [h2, encNFP_nil]
    simp

theorem claim_C3_witness :
    EncodeGo.Marshal (.struct [(ascii "Bizz", none, Value.int 1)]) =
      some (ascii "de") ∧
    EncodeNF.Marshal (.struct [(ascii "Bizz", none, Value.int 1)]) =
      some (100 :: (strEnc (ascii "Bizz") ++ (encNFV (Value.int 1) ++ [101]))) :=
  claim_C3 (ascii "Bizz") (Value.int 1) rfl

theorem claim_C3_cex :
    EncodeGo.Marshal (.struct [(ascii "Bizz", none, Value.int 1)]) =
      some (ascii "de") ∧
    EncodeNF.Marshal (.struct [(ascii "Bizz", none, Value.int 1)]) =
      some (ascii "d4:Bizzi1ee") ∧
    ascii "de" ≠ ascii "d4:Bizzi1ee" :=
  ⟨rfl, rfl, by decide⟩

/-- Claim C4 (corrected): the deferred flush of a single Encode call indeed
fires only on success, so an error from the body is returned with the state
the body left (this theorem).  But the claim as stated is false: the list and
struct arms encode nested values through fresh Encode calls whose own deferred
flushes fire on their success, so a later error can leave an already-flushed
prefix visible in the sink (counterexample). -/
theorem claim_C4 (f : Nat) (v : Value) (st st1 : WState) (e : EErr)
    (h : EncodeGo.encodeB f v st = (some e, st1)) :
    EncodeGo.encode (f + 1) v st = (some e, st1) := by
  show (match EncodeGo.encodeB f v st with
        | (none, st2) => (none, flush st2)
        | r => r) = (some e, st1)
  rw [h]

theorem claim_C4_witness :
    EncodeGo.encode 2 .unsupported ⟨[], []⟩ =
      (some .unsupportedType, ⟨[], []⟩) :=
  claim_C4 1 .unsupported ⟨[], []⟩ ⟨[], []⟩ .unsupportedType rfl

theorem claim_C4_cex :
    EncodeGo.encode 10 (.list (.int 0) [.bytes (ascii "a"), .unsupported])
      ⟨[], []⟩ = (some .unsupportedType, ⟨[], ascii "l1:a"⟩) ∧
    ascii "l1:a" ≠ [] :=
  ⟨rfl, by decide⟩

/-- Claim C5 (corrected): concatenated well-formed values do decode in order
off one stream, and both the call after the last value and a mid-value
truncation (a byte string whose declared length k exceeds the remaining
bytes) return an error rather than a silent short read — but the two
conditions are NOT distinct: both surface the same io.EOF error of the
buffered reader. -/
theorem claim_C5 (v tgt : Value) (rest b s : List UInt8) (k : Nat)
    (hw : wf1 v = true) (hm : MatchTgt tgt v) (hs : s.length < k) :
    Decode tgt (encV v ++ rest) = .ok v rest ∧
    Decode (.bytes b) [] = .err .eof ∧
    Decode (.bytes b) (ntoa k ++ 58 :: s) = .err .eof := by
  refine ⟨Decode_encV hw hm, rfl, ?_⟩
  have hds : decodeString (ntoa k ++ 58 :: s) = .err .eof := by
    rw [decodeString,
      decodeInteger_delim (fun hm2 => ntoa_ne_colon k 58 hm2 rfl) (atoi_ntoa k)]
    show (if (Int.ofNat k) < 0 then DRes.panic
          else readFull (Int.ofNat k).toNat s) = _
    rw [if_neg (by exact Int.not_lt.mpr (Int.ofNat_nonneg k))]
    rw [show (Int.ofNat k).toNat = k from rfl]
    rw [readFull, if_neg (by omega)]
  show (match decodeString (ntoa k ++ 58 :: s) with
        | DRes.ok b1 r1 => DRes.ok (Value.bytes b1) r1
        | DRes.err e => DRes.err e
        | DRes.panic => DRes.panic
        | DRes.out => DRes.out) = DRes.err DErr.eof
  rw [hds]

theorem claim_C5_witness :
    Decode (.int 0) (encV (.int 5) ++ []) = .ok (.int 5) [] ∧
    Decode (.bytes []) [] = .err .eof ∧
    Decode (.bytes []) (ntoa 3 ++ 58 :: ascii "ab") = .err .eof :=
  claim_C5 (.int 5) (.int 0) [] [] (ascii "ab") 3 rfl trivial (by decide)

theorem claim_C5_cex :
    Unmarshal (ascii "3:ab") (.bytes []) = .err .eof ∧
    Unmarshal ([] : List UInt8) (.bytes []) = .err .eof :=
  ⟨rfl, rfl⟩

/-- Claim C6 (code bug): a length prefix that parses to a negative integer,
such as the input -3:abc, drives make with a negative length in decodeString,
which panics instead of returning an error to the caller; the claim that every
Decode call with a byte-string target returns normally is refuted by the
code. -/
theorem claim_C6 : Unmarshal (ascii "-3:abc") (.bytes []) = .panic := rfl

/-- Claim C7 (confirmed): decoding a wire list into a sequence target resets
the target before appending, so the result holds exactly the wire elements in
arrival order whatever the target held before; concretely, decoding li1ee into
a target holding 7, 8, 9 yields exactly the one-element list 1. -/
theorem claim_C7 (z : Value) (prior es : List Value) (rest : List UInt8)
    (hw : wf1 (.list z es) = true) :
    Decode (.list z prior) (encV (.list z es) ++ rest) = .ok (.list z es) rest ∧
    Unmarshal (ascii "li1ee") (.list (.int 0) [.int 7, .int 8, .int 9]) =
      .ok (.list (.int 0) [.int 1]) [] :=
  ⟨Decode_encV hw rfl, rfl⟩

theorem claim_C7_witness :
    Decode (.list (.int 0) [.int 42])
        (encV (.list (.int 0) [.int 1, .int 2]) ++ []) =
      .ok (.list (.int 0) [.int 1, .int 2]) [] ∧
    Unmarshal (ascii "li1ee") (.list (.int 0) [.int 7, .int 8, .int 9]) =
      .ok (.list (.int 0) [.int 1]) [] :=
  claim_C7 (.int 0) [.int 42] [.int 1, .int 2] [] rfl

/-- Claim C8 (confirmed): a dictionary whose keys all map to no field decodes
successfully, discarding every entry without touching the record (first
conjunct, for arbitrary runs of unmapped entries over any encodable values);
and decoding d3:bizi0e4:fizzi3ee into a record that only maps fizz sets that
field to 3 and silently skips the biz entry (second conjunct). -/
theorem claim_C8 (pairs : List (List UInt8 × Value)) (g : List SField)
    (rest : List UInt8)
    (hp : ∀ p ∈ pairs, findField p.1 g = none ∧ noUnsupB p.2 = true) :
    Decode (.struct g) (100 :: (wireD pairs ++ 101 :: rest)) =
      .ok (.struct g) rest ∧
    Unmarshal (ascii "d3:bizi0e4:fizzi3ee")
        (.struct [(ascii "Fizz", some (ascii "fizz"), Value.int 0)]) =
      .ok (.struct [(ascii "Fizz", some (ascii "fizz"), Value.int 3)]) [] :=
  ⟨Decode_skipAll pairs g rest hp, rfl⟩

theorem claim_C8_witness :
    Decode (.struct [(ascii "Fizz", some (ascii "fizz"), Value.int 7)])
        (100 :: (wireD [(ascii "biz", Value.int 0)] ++ 101 :: [])) =
      .ok (.struct [(ascii "Fizz", some (ascii "fizz"), Value.int 7)]) [] ∧
    Unmarshal (ascii "d3:bizi0e4:fizzi3ee")
        (.struct [(ascii "Fizz", some (ascii "fizz"), Value.int 0)]) =
      .ok (.struct [(ascii "Fizz", some (ascii "fizz"), Value.int 3)]) [] :=
  claim_C8 [(ascii "biz", Value.int 0)]
    [(ascii "Fizz", some (ascii "fizz"), Value.int 7)] []
    (by
      intro p hp2
      rw [List.mem_singleton] at hp2
      subst hp2
      exact ⟨rfl, rfl⟩)

/-- Claim C9 (corrected): under the encoder of src/unnamed/part_001 a field
tagged with the omitempty option whose value is the zero value of its type
contributes no key and no value (removing it leaves the output unchanged);
src/encode.go however performs no option parsing and emits such a field with
the raw tag as its key, refuting the claim for the checked-in encoder. -/
theorem claim_C9 (n t : List UInt8) (v : Value) (fs1 fs2 : List SField)
    (hop : (commaOpts t).contains (ascii "omitempty") = true)
    (hz : isZeroB v = true)
    (hnu : noUnsupF (fs1 ++ (n, some t, v) :: fs2) = true) :
    EncodeNF.Marshal (.struct (fs1 ++ (n, some t, v) :: fs2)) =
      EncodeNF.Marshal (.struct (fs1 ++ fs2)) := by
  refine MarshalNF_erase fs1 fs2 ?_ hnu
  rw [resolveNF]
  by_cases ht : t = [45]
  · rw [if_pos ht]
  · rw [if_neg ht, if_pos (by rw [hop, hz]; rfl)]

theorem claim_C9_witness :
    EncodeNF.Marshal (.struct [(ascii "x", some (ascii "x,omitempty"),
        Value.int 0)]) =
      EncodeNF.Marshal (.struct ([] : List SField)) :=
  claim_C9 (ascii "x") (ascii "x,omitempty") (Value.int 0) [] [] rfl rfl rfl

theorem claim_C9_cex :
    EncodeGo.Marshal (.struct [(ascii "x", some (ascii "x,omitempty"),
        Value.int 0)]) = some (ascii "d11:x,omitemptyi0ee") ∧
    ascii "d11:x,omitemptyi0ee" ≠ ascii "de" :=
  ⟨rfl, by decide⟩

/-- Claim C10 (corrected): under the encoder of src/unnamed/part_001 a field
tagged with the sentinel never appears in the output (removing it leaves the
output unchanged), and src/decode.go never matches any wire key to it (every
successful run of the entry loop leaves the field at its position with its
value untouched).  src/encode.go however uses the tag verbatim and emits the
key called -, refuting the encoding half of the claim for the checked-in
encoder. -/
theorem claim_C10 (n : List UInt8) (v : Value) (fs1 fs2 : List SField)
    (hnu : noUnsupF (fs1 ++ (n, some [45], v) :: fs2) = true) :
    EncodeNF.Marshal (.struct (fs1 ++ (n, some [45], v) :: fs2)) =
      EncodeNF.Marshal (.struct (fs1 ++ fs2)) ∧
    (∀ f s g2 rest, decodeS f (fs1 ++ (n, some [45], v) :: fs2) s = .ok g2 rest →
      g2.get? fs1.length = some (n, some [45], v)) := by
  constructor
  · exact MarshalNF_erase fs1 fs2 (by rw [resolveNF, if_pos rfl]) hnu
  · intro f s g2 rest hd
    refine decodeS_preserves f _ s g2 rest hd fs1.length (n, some [45], v) ?_ ?_
    · rw [List.get?_append_right le_rfl]
      simp
    · rw [resolvedName, if_pos rfl]

theorem claim_C10_witness :
    EncodeNF.Marshal (.struct [(ascii "x", some [45], Value.int 1)]) =
      EncodeNF.Marshal (.struct ([] : List SField)) ∧
    ([(ascii "x", some [45], Value.int 1)] : List SField).get? 0 =
      some (ascii "x", some [45], Value.int 1) :=
  ⟨(claim_C10 (ascii "x") (Value.int 1) [] [] rfl).1,
   (claim_C10 (ascii "x") (Value.int 1) [] [] rfl).2 10 (ascii "1:-i2ee")
     [(ascii "x", some [45], Value.int 1)] [] rfl⟩

theorem claim_C10_cex :
    EncodeGo.Marshal (.struct [(ascii "x", some (ascii "-"), Value.int 1)]) =
      some (ascii "d1:-i1ee") ∧
    ascii "d1:-i1ee" ≠ ascii "de" :=
  ⟨rfl, by decide⟩

end Bencode
